import Mathlib

set_option maxRecDepth 20000

/-!
A shallow embedding of the repository's two Python utilities.

`fix-fixtures.py` reads each file named on the command line, applies two
`re.sub` substitutions (multi-line fixture-object patterns, `re.DOTALL`) and
four `str.replace` renames to its text, and writes the text back.  The text
transformation is embedded below over `List Char`; the regex patterns are
fixed literals, so their matching semantics (leftmost match, lazy and greedy
quantifier backtracking) are embedded directly as combinators.

`examples/hooks/run-tests.py` reads a JSON context from stdin and dispatches
a test runner; its early `workUnitId` check is embedded over a JSON value
type.
-/

/-- Python `re` whitespace class `\s` (as used by the `\s*` in the fixture
patterns): ASCII whitespace, the C1 separator controls, NEL, NBSP and the
Unicode space separators recognised by CPython. -/
def isPySpace (c : Char) : Bool :=
  c == ' ' || c == '\t' || c == '\n' || c == '\r' || c == '\x0b' || c == '\x0c' ||
  c == '\x1c' || c == '\x1d' || c == '\x1e' || c == '\x1f' || c == '\x85' || c == '\xa0' ||
  c == ' ' || (decide (' ' ≤ c) && decide (c ≤ ' ')) ||
  c == ' ' || c == ' ' || c == ' ' || c == ' ' || c == '　'

/-- Match a literal token at the start of `l`, then continue with `k` on the
rest; returns the total number of characters consumed, or `none`. -/
def litThen (lit : List Char) (k : List Char → Option Nat) (l : List Char) : Option Nat :=
  if lit.isPrefixOf l then (k (l.drop lit.length)).map (fun n => n + lit.length) else none

/-- A lazy (non-greedy) star over the character class `p`, then `k`: try the
continuation first, and only on failure consume one `p`-character and retry —
exactly the backtracking order of Python's `*?`. -/
def lazyThen (p : Char → Bool) (k : List Char → Option Nat) : List Char → Option Nat
  | [] => k []
  | c :: cs =>
    match k (c :: cs) with
    | some n => some n
    | none => if p c then (lazyThen p k cs).map (fun n => n + 1) else none

/-- A greedy star over the character class `p`, then `k`: consume as many
`p`-characters as possible first, backtracking on failure — the order of
Python's `\s*`. -/
def greedyThen (p : Char → Bool) (k : List Char → Option Nat) : List Char → Option Nat
  | [] => k []
  | c :: cs =>
    if p c then
      match greedyThen p k cs with
      | some n => some (n + 1)
      | none => k (c :: cs)
    else k (c :: cs)

/-- Start anchor of the first structural pattern: `const minimalFoundation = \x7b`. -/
def head1 : List Char := "const minimalFoundation = \x7b".toList

/-- Start anchor of the second structural pattern: `const foundationData = \x7b`. -/
def head2 : List Char := "const foundationData = \x7b".toList

/-- The `\$schema:` literal both structural patterns require after the
opening brace. -/
def schemaTok : List Char := "$schema:".toList

/-- The literal end anchor `notes: \x7b developmentStatus: [] \x7d,` of both
structural patterns. -/
def endMarker : List Char := "notes: \x7b developmentStatus: [] \x7d,".toList

/-- The closing `\x7d;` that ends both structural patterns after optional
whitespace. -/
def closeTok : List Char := "\x7d;".toList

/-- Replacement text of the first structural rule. -/
def repl1 : List Char := "const minimalFoundation = createMinimalFoundation();".toList

/-- Replacement text of the second structural rule. -/
def repl2 : List Char := "const foundationData = createMinimalFoundation();".toList

/-- Tail of both structural patterns: `\s*\x7d;` — greedy whitespace then the
closing literal. -/
def tailMatch : List Char → Option Nat :=
  greedyThen isPySpace (litThen closeTok (fun _ => some 0))

/-- Middle of both structural patterns after `\$schema:`: lazy `.*?` under
`re.DOTALL` (any character, newline included) up to the end marker, then the
tail. -/
def afterSchema : List Char → Option Nat :=
  lazyThen (fun _ => true) (litThen endMarker tailMatch)

/-- Attempt the structural pattern
`head\[^\x7d]*?\$schema:.*?notes: \x7b developmentStatus: [] \x7d,\s*\x7d;`
at the start of `l`; returns the length of the match. -/
def fixtureMatchLen (head : List Char) (l : List Char) : Option Nat :=
  litThen head (lazyThen (fun c => !(c == '\x7d')) (litThen schemaTok afterSchema)) l

/-- One pass of `re.sub`: scan left to right, replacing every non-overlapping
match of `m` by `r` (fuelled by the input length; our matchers always consume
at least their nonempty head literal, so the zero-width branch mirrors
Python's behaviour but is unreachable). -/
def subAllFuel (m : List Char → Option Nat) (r : List Char) : Nat → List Char → List Char
  | _, [] => []
  | 0, l => l
  | f + 1, c :: cs =>
    match m (c :: cs) with
    | some n =>
      if n = 0 then r ++ c :: subAllFuel m r f cs
      else r ++ subAllFuel m r f (List.drop n (c :: cs))
    | none => c :: subAllFuel m r f cs

/-- `re.sub m r text`: replace all non-overlapping matches. -/
def subAll (m : List Char → Option Nat) (r : List Char) (l : List Char) : List Char :=
  subAllFuel m r l.length l

/-- Python `str.replace old new`: replace all non-overlapping occurrences of
the literal `old`, scanning left to right (fuelled by the input length; all
`old` strings used here are nonempty). -/
def pyReplaceFuel (old new : List Char) : Nat → List Char → List Char
  | _, [] => []
  | 0, l => l
  | f + 1, c :: cs =>
    if old.isPrefixOf (c :: cs) then
      new ++ pyReplaceFuel old new f (List.drop old.length (c :: cs))
    else c :: pyReplaceFuel old new f cs

/-- `str.replace` at the usual type. -/
def pyReplace (old new l : List Char) : List Char :=
  pyReplaceFuel old new l.length l

/-- Rename rule 1, old side. -/
def r1old : List Char := "whatWeAreBuilding.projectOverview".toList

/-- Rename rule 1, new side. -/
def r1new : List Char := "solutionSpace.overview".toList

/-- Rename rule 2, old side. -/
def r2old : List Char := "whyWeAreBuildingIt.problemDefinition.primary.description".toList

/-- Rename rule 2, new side. -/
def r2new : List Char := "problemSpace.primaryProblem.description".toList

/-- Rename rule 3, old side. -/
def r3old : List Char := "whatWeAreBuilding".toList

/-- Rename rule 3, new side. -/
def r3new : List Char := "solutionSpace".toList

/-- Rename rule 4, old side. -/
def r4old : List Char := "whyWeAreBuildingIt".toList

/-- Rename rule 4, new side. -/
def r4new : List Char := "problemSpace".toList

/-- The full text transformation of `fix_file` between its read and its
write: the two structural `re.sub` passes, then the four `str.replace`
renames, in source order. -/
def fixContent (t : List Char) : List Char :=
  pyReplace r4old r4new
    (pyReplace r3old r3new
      (pyReplace r2old r2new
        (pyReplace r1old r1new
          (subAll (fixtureMatchLen head2) repl2
            (subAll (fixtureMatchLen head1) repl1 t)))))

/-- `fix_file`'s text transformation at the `String` level. -/
def migrateString (s : String) : String :=
  String.mk (fixContent s.toList)

/-- Output channels of the processes: Python's `print(...)` writes to
standard output unless `file=sys.stderr` is passed. -/
inductive Chan
  | stdout
  | stderr
deriving DecidableEq, Repr

/-- The file system visible to `fix-fixtures.py`: an association of paths to
text contents.  A path absent from the list is a file whose `open(...,'r')`
raises `FileNotFoundError`. -/
abbrev FSys : Type := List (String × String)

/-- `open(filepath).read()`: the content, or `none` when the path is missing. -/
def readFSys (fs : FSys) (p : String) : Option String :=
  List.lookup p fs

/-- `open(filepath,'w').write(content)`: overwrite the file in place
(creating it if absent — unreachable here, since `fix_file` only writes a
path it has just read). -/
def writeFSys (fs : FSys) (p : String) (content : String) : FSys :=
  match fs with
  | [] => [(p, content)]
  | (q, d) :: rest =>
    if q = p then (p, content) :: rest else (q, d) :: writeFSys rest p content

/-- `str(FileNotFoundError)` for a missing path, as CPython renders it. -/
def readErrDetail (p : String) : String :=
  "[Errno 2] No such file or directory: \x27" ++ p ++ "\x27"

/-- `fix_file`: read the file (raising — here `none` — when the read fails),
transform the text, write it back, and print `Fixed <filepath>` on standard
output.  Returns the updated file system and the printed line. -/
def fix_file (fs : FSys) (p : String) : Option (FSys × String) :=
  match readFSys fs p with
  | none => none
  | some content => some (writeFSys fs p (migrateString content), "Fixed " ++ p)

/-- The `for filepath in sys.argv[1:]` loop of `__main__`: on the first
`fix_file` exception, print `Error fixing <filepath>: <detail>` and
`sys.exit(1)` at once; otherwise run to completion and fall through with
exit code 0.  Returns the final file system, the printed lines with their
channels (all on standard output in the source) and the exit code. -/
def mainLoop (fs : FSys) : List String → FSys × List (Chan × String) × Nat
  | [] => (fs, [], 0)
  | p :: ps =>
    match fix_file fs p with
    | some (fs2, line) =>
      let rest := mainLoop fs2 ps
      (rest.1, (Chan.stdout, line) :: rest.2.1, rest.2.2)
    | none =>
      (fs, [(Chan.stdout, "Error fixing " ++ p ++ ": " ++ readErrDetail p)], 1)

/-- The usage line printed (by plain `print`, hence to standard output) when
no file arguments are supplied. -/
def usageMsg : String := "Usage: fix-fixtures.py <file1> [file2] [file3] ..."

/-- The whole `__main__` block of `fix-fixtures.py`: `args` is
`sys.argv[1:]`; with no arguments print the usage line and exit 1, else run
the per-file loop. -/
def mainFix (fs : FSys) (args : List String) : FSys × List (Chan × String) × Nat :=
  if args.isEmpty then (fs, [(Chan.stdout, usageMsg)], 1)
  else mainLoop fs args

/-- JSON values as `json.loads` produces them (numbers restricted to the
integers, which suffices for the hook's truthiness check). -/
inductive JVal
  | null
  | jbool (b : Bool)
  | jnum (n : Int)
  | jstr (s : String)
  | jarr (xs : List JVal)
  | jobj (fields : List (String × JVal))

/-- Python truthiness of a decoded JSON value: `None`, `False`, `0`, `""`,
`[]` and `\x7b\x7d` are falsy. -/
def truthy : JVal → Bool
  | JVal.null => false
  | JVal.jbool b => b
  | JVal.jnum n => !(n == 0)
  | JVal.jstr s => !(s == "")
  | JVal.jarr xs => !xs.isEmpty
  | JVal.jobj fields => !fields.isEmpty

/-- `context.get(key)` on a decoded JSON object: `None` when the key is
absent; `json.loads` keeps the last binding of a duplicated key. -/
def dictGet (fields : List (String × JVal)) (k : String) : JVal :=
  match List.lookup k fields.reverse with
  | none => JVal.null
  | some v => v

/-- Outcome of the hook's `workUnitId` stage in `run-tests.py`. -/
inductive HookOutcome
  | fatal (chan : Chan) (msg : String) (code : Nat)
  | proceed (workUnitId : JVal)

/-- The `workUnitId` check of `run-tests.py` on a successfully parsed JSON
object context: `context.get('workUnitId')` followed by `if not
work_unit_id`, which prints `No workUnitId in context` to standard error and
exits 1 on any falsy value. -/
def checkWorkUnitId (fields : List (String × JVal)) : HookOutcome :=
  let w := dictGet fields "workUnitId"
  if truthy w then HookOutcome.proceed w
  else HookOutcome.fatal Chan.stderr "No workUnitId in context" 1

/-- `\$schema:` is reachable from the start of `l` through non-`\x7d`
characters: the condition the lazy `[^\x7d]*?\$schema:` segment of the
structural patterns tests, expressed as a direct scan. -/
def cleanSchemaAt : List Char → Bool
  | [] => false
  | c :: cs => schemaTok.isPrefixOf (c :: cs) || (!(c == '\x7d') && cleanSchemaAt cs)

/-- The non-`\x7d` character class `[^\x7d]` of the structural patterns. -/
def nbClass (c : Char) : Bool := !(c == '\x7d')

/-- The any-character class of `.` under `re.DOTALL`. -/
def anyClass (_ : Char) : Bool := true

/-- A token of a linear regular pattern: a literal, or a star over a
character class.  Matchability (whether some backtracking succeeds) of the
fixture patterns is independent of whether each star is lazy or greedy, so
the flags are dropped here. -/
inductive Tok
  | lit (t : List Char)
  | star (p : Char → Bool)

/-- `PatMatch pat s`: some prefix of `s` matches the token sequence `pat`
(each star consuming any run of its class). -/
def PatMatch : List Tok → List Char → Prop
  | [], _ => True
  | Tok.lit t :: ps, s => t <+: s ∧ PatMatch ps (s.drop t.length)
  | Tok.star p :: ps, s => ∃ j, ((s.take j).all p) = true ∧ PatMatch ps (s.drop j)

/-- Window stage of the fixture pattern: `[^\x7d]*?\$schema:.*?marker\s*\x7d;`. -/
def stW : List Tok :=
  [Tok.star nbClass, Tok.lit schemaTok, Tok.star anyClass, Tok.lit endMarker,
   Tok.star isPySpace, Tok.lit closeTok]

/-- After-schema stage of the fixture pattern: `.*?marker\s*\x7d;`. -/
def stA : List Tok :=
  [Tok.star anyClass, Tok.lit endMarker, Tok.star isPySpace, Tok.lit closeTok]

/-- Tail stage of the fixture pattern: `\s*\x7d;`. -/
def stS : List Tok :=
  [Tok.star isPySpace, Tok.lit closeTok]

/-- The fixture pattern of head literal `h` as a token sequence. -/
def pats (h : List Char) : List Tok :=
  Tok.lit h :: stW

/-- The residual matching states of the fixture pattern of head `h`:
a partially consumed literal followed by the remaining stages, or a stage
boundary. -/
def StateOf (h : List Char) (q : List Tok) : Prop :=
  (∃ k, k < h.length ∧ q = Tok.lit (h.drop k) :: stW) ∨
  q = stW ∨
  (∃ k, k < schemaTok.length ∧ q = Tok.lit (schemaTok.drop k) :: stA) ∨
  q = stA ∨
  (∃ k, k < endMarker.length ∧ q = Tok.lit (endMarker.drop k) :: stS) ∨
  q = stS ∨
  (∃ k, k < closeTok.length ∧ q = Tok.lit (closeTok.drop k) :: []) ∨
  q = []

/-- The structure `re.sub` imposes on its output: the input is consumed
either one unmatched character at a time (copied) or one whole match at a
time (replaced by `r`), scanning left to right. -/
inductive SubDecomp (m : List Char → Option Nat) (r : List Char) : List Char → List Char → Prop
  | nil : SubDecomp m r [] []
  | cons {c : Char} {cs out : List Char} : m (c :: cs) = none → SubDecomp m r cs out →
      SubDecomp m r (c :: cs) (c :: out)
  | repl {l out : List Char} {n : Nat} : m l = some n → n ≠ 0 → l ≠ [] →
      SubDecomp m r (l.drop n) out → SubDecomp m r l (r ++ out)

/-- The structure `str.replace` imposes on its output. -/
inductive RepDecomp (old new : List Char) : List Char → List Char → Prop
  | nil : RepDecomp old new [] []
  | cons {c : Char} {cs out : List Char} : ¬ old <+: (c :: cs) → RepDecomp old new cs out →
      RepDecomp old new (c :: cs) (c :: out)
  | repl {l out : List Char} : old <+: l → old ≠ [] → RepDecomp old new (l.drop old.length) out →
      RepDecomp old new l (new ++ out)

theorem litThen_eq_some {lit : List Char} {k : List Char → Option Nat} {l : List Char} {n : Nat}
    (h : litThen lit k l = some n) :
    lit.isPrefixOf l = true ∧ ∃ v, k (l.drop lit.length) = some v ∧ n = v + lit.length := by
  by_cases hp : lit.isPrefixOf l
  · rw [litThen, if_pos hp] at h
    obtain ⟨v, hv, hn⟩ := Option.map_eq_some'.mp h
    exact ⟨hp, v, hv, hn.symm⟩
  · rw [litThen, if_neg hp] at h
    exact absurd h (by simp)

theorem litThen_intro {lit : List Char} {k : List Char → Option Nat} {l : List Char} {v : Nat}
    (hp : lit.isPrefixOf l = true) (hk : k (l.drop lit.length) = some v) :
    litThen lit k l = some (v + lit.length) := by
  rw [litThen, if_pos hp, hk, Option.map_some']

theorem litThen_none {lit : List Char} {k : List Char → Option Nat} {l : List Char}
    (hp : lit.isPrefixOf l = false) : litThen lit k l = none := by
  rw [litThen, if_neg (by simp [hp])]

theorem lazyThen_eq_some {p : Char → Bool} {k : List Char → Option Nat} :
    ∀ {l : List Char} {n : Nat}, lazyThen p k l = some n →
      ∃ j v, j ≤ l.length ∧ ((l.take j).all p) = true ∧ k (l.drop j) = some v ∧ n = v + j
  | [], n, h => ⟨0, n, Nat.le_refl 0, by simp, by simpa [lazyThen] using h, rfl⟩
  | c :: cs, n, h => by
    cases hk : k (c :: cs) with
    | some m =>
      have hmn : m = n := by simpa [lazyThen, hk] using h
      exact ⟨0, n, Nat.zero_le _, by simp, by simpa [hmn] using hk, by omega⟩
    | none =>
      by_cases hpc : p c
      · have h' : Option.map (fun x => x + 1) (lazyThen p k cs) = some n := by
          simpa [lazyThen, hk, hpc] using h
        obtain ⟨m, hm, hn⟩ := Option.map_eq_some'.mp h'
        obtain ⟨j, v, hj, hall, hkj, hv⟩ := lazyThen_eq_some hm
        exact ⟨j + 1, v, Nat.succ_le_succ hj, by simp [hpc, hall], by simpa using hkj, by omega⟩
      · exact absurd h (by simp [lazyThen, hk, hpc])

theorem lazyThen_intro {p : Char → Bool} {k : List Char → Option Nat} :
    ∀ {l : List Char} {j v : Nat}, ((l.take j).all p) = true → k (l.drop j) = some v →
      (∀ i, i < j → k (l.drop i) = none) → j ≤ l.length → lazyThen p k l = some (v + j)
  | [], j, v, _, hk, _, hj => by
    have hj0 : j = 0 := Nat.le_zero.mp hj
    subst hj0
    simpa [lazyThen] using hk
  | c :: cs, 0, v, _, hk, _, _ => by
    simp only [List.drop_zero] at hk
    simp [lazyThen, hk]
  | c :: cs, j + 1, v, hall, hk, hnone, hj => by
    have h0 : k (c :: cs) = none := by simpa using hnone 0 (Nat.succ_pos j)
    simp only [List.take_succ_cons, List.all_cons, Bool.and_eq_true] at hall
    have ih := lazyThen_intro (l := cs) (j := j) (v := v) hall.2 (by simpa using hk)
      (fun i hi => by simpa using hnone (i + 1) (Nat.succ_lt_succ hi)) (by simpa using hj)
    simp [lazyThen, h0, hall.1, ih, Nat.add_assoc]

theorem greedyThen_intro {p : Char → Bool} {k : List Char → Option Nat} :
    ∀ (w : List Char) {rest : List Char} {v : Nat}, (w.all p) = true →
      (∀ c cs, rest = c :: cs → p c = false) → k rest = some v →
      greedyThen p k (w ++ rest) = some (v + w.length)
  | [], rest, v, _, hrest, hk => by
    cases rest with
    | nil => simpa [greedyThen] using hk
    | cons c cs => simp [greedyThen, hrest c cs rfl, hk]
  | a :: w, rest, v, hall, hrest, hk => by
    simp only [List.all_cons, Bool.and_eq_true] at hall
    have ih := greedyThen_intro w hall.2 hrest hk
    simp [greedyThen, hall.1, ih, Nat.add_assoc]

theorem isPrefixOf_append_self (l t : List Char) : l.isPrefixOf (l ++ t) = true := by
  rw [List.isPrefixOf_iff_prefix]
  exact List.prefix_append l t

/-- A structural pattern matches the decomposed span
`head ++ a ++ \$schema: ++ b ++ endMarker ++ w ++ \x7d; (++ post)` exactly up
to the `\x7d;`, when `a` is brace-free and holds the first `\$schema:`, `b`
holds no earlier end marker, and `w` is whitespace. -/
theorem fixtureMatch_span (head a b w post : List Char)
    (ha : (a.all fun c => !(c == '\x7d')) = true)
    (haFirst : ∀ i, i < a.length →
      schemaTok.isPrefixOf ((a ++ (schemaTok ++ (b ++ (endMarker ++ (w ++ (closeTok ++ post)))))).drop i) = false)
    (hbFirst : ∀ i, i < b.length →
      endMarker.isPrefixOf ((b ++ (endMarker ++ (w ++ (closeTok ++ post)))).drop i) = false)
    (hw : (w.all isPySpace) = true) :
    fixtureMatchLen head (head ++ (a ++ (schemaTok ++ (b ++ (endMarker ++ (w ++ (closeTok ++ post))))))) =
      some (head.length + a.length + schemaTok.length + b.length + endMarker.length + w.length + closeTok.length) := by
  have hclose : closeTok ++ post = '\x7d' :: (';' :: post) := by
    rw [show closeTok = ['\x7d', ';'] from by decide]
    rfl
  have h4 : tailMatch (w ++ (closeTok ++ post)) = some (0 + closeTok.length + w.length) := by
    rw [tailMatch]
    refine greedyThen_intro w hw ?_ ?_
    · intro c cs hc
      rw [hclose] at hc
      cases hc
      decide
    · exact litThen_intro (isPrefixOf_append_self _ _) rfl
  have h3 : afterSchema (b ++ (endMarker ++ (w ++ (closeTok ++ post)))) =
      some (0 + closeTok.length + w.length + endMarker.length + b.length) := by
    rw [afterSchema]
    have hlit : litThen endMarker tailMatch
        ((b ++ (endMarker ++ (w ++ (closeTok ++ post)))).drop b.length) =
        some (0 + closeTok.length + w.length + endMarker.length) := by
      rw [List.drop_left]
      exact litThen_intro (isPrefixOf_append_self _ _) (by rw [List.drop_left]; exact h4)
    have := lazyThen_intro (p := fun _ => true) (by simp) hlit
      (fun i hi => litThen_none (hbFirst i hi)) (by simp)
    simpa using this
  have h2 : litThen schemaTok afterSchema
      ((a ++ (schemaTok ++ (b ++ (endMarker ++ (w ++ (closeTok ++ post)))))).drop a.length) =
      some (0 + closeTok.length + w.length + endMarker.length + b.length + schemaTok.length) := by
    rw [List.drop_left]
    exact litThen_intro (isPrefixOf_append_self _ _) (by rw [List.drop_left]; exact h3)
  have h1 : lazyThen (fun c => !(c == '\x7d')) (litThen schemaTok afterSchema)
      (a ++ (schemaTok ++ (b ++ (endMarker ++ (w ++ (closeTok ++ post)))))) =
      some (0 + closeTok.length + w.length + endMarker.length + b.length + schemaTok.length + a.length) := by
    refine lazyThen_intro (by rw [List.take_left]; exact ha) h2
      (fun i hi => litThen_none (haFirst i hi)) (by simp)
  have h0 : fixtureMatchLen head
      (head ++ (a ++ (schemaTok ++ (b ++ (endMarker ++ (w ++ (closeTok ++ post))))))) =
      some (0 + closeTok.length + w.length + endMarker.length + b.length + schemaTok.length + a.length + head.length) := by
    rw [fixtureMatchLen]
    exact litThen_intro (isPrefixOf_append_self _ _) (by rw [List.drop_left]; exact h1)
  rw [h0]
  congr 1
  omega

theorem fixtureMatchLen_nil {head : List Char} (h : head ≠ []) :
    fixtureMatchLen head [] = none := by
  apply litThen_none
  cases head with
  | nil => exact absurd rfl h
  | cons c cs => rfl

/-- `re.sub` is the identity on any text in which the pattern matches at no
position. -/
theorem subAllFuel_id {m : List Char → Option Nat} {r : List Char} :
    ∀ {l : List Char}, (∀ i, m (l.drop i) = none) → ∀ f, subAllFuel m r f l = l
  | [], _, f => by cases f <;> rfl
  | c :: cs, h, f => by
    have h0 : m (c :: cs) = none := h 0
    have ih := subAllFuel_id (m := m) (r := r) (l := cs) (fun i => by simpa using h (i + 1))
    cases f with
    | zero => rfl
    | succ f => simp [subAllFuel, h0, ih f]

/-- The `re.sub` scan copies a match-free portion of text verbatim. -/
theorem subAllFuel_append {m : List Char → Option Nat} {r : List Char} :
    ∀ (pre rest : List Char) (f : Nat),
      (∀ i, i < pre.length → m ((pre ++ rest).drop i) = none) →
      subAllFuel m r (pre.length + f) (pre ++ rest) = pre ++ subAllFuel m r f rest
  | [], rest, f, _ => by simp
  | c :: pre, rest, f, h => by
    have h0 : m (c :: (pre ++ rest)) = none := by simpa using h 0 (Nat.succ_pos _)
    have ih := subAllFuel_append (m := m) (r := r) pre rest f (fun i hi => by
      simpa using h (i + 1) (Nat.succ_lt_succ hi))
    have hfuel : (c :: pre).length + f = (pre.length + f) + 1 := by
      simp [Nat.add_assoc, Nat.add_comm, Nat.add_left_comm]
    rw [hfuel, List.cons_append, subAllFuel]
    simp only [h0]
    rw [ih]
    rfl

/-- One `re.sub` step at a successful (non-zero-width) match. -/
theorem subAllFuel_match {m : List Char → Option Nat} {r : List Char} {l : List Char} {n : Nat}
    (h : m l = some n) (hn : n ≠ 0) (hl : l ≠ []) (f : Nat) (hf : 1 ≤ f) :
    subAllFuel m r f l = r ++ subAllFuel m r (f - 1) (l.drop n) := by
  cases l with
  | nil => exact absurd rfl hl
  | cons c cs =>
    cases f with
    | zero => omega
    | succ f => simp [subAllFuel, h, hn]

theorem cleanSchemaAt_of : ∀ {l : List Char} {j : Nat},
    ((l.take j).all fun c => !(c == '\x7d')) = true →
    schemaTok.isPrefixOf (l.drop j) = true → cleanSchemaAt l = true
  | [], j, _, hp => by
    rw [List.drop_nil] at hp
    exact absurd hp (by decide)
  | c :: cs, 0, _, hp => by
    simp only [List.drop_zero] at hp
    simp [cleanSchemaAt, hp]
  | c :: cs, j + 1, hall, hp => by
    simp only [List.take_succ_cons, List.all_cons, Bool.and_eq_true] at hall
    have ih := cleanSchemaAt_of (l := cs) (j := j) hall.2 (by simpa using hp)
    simp [cleanSchemaAt, hall.1, ih]

/-- A successful structural match begins with the head literal and reaches a
`\$schema:` token through brace-free characters. -/
theorem fixtureMatchLen_clean {head l : List Char} {n : Nat}
    (h : fixtureMatchLen head l = some n) :
    head.isPrefixOf l = true ∧ cleanSchemaAt (l.drop head.length) = true := by
  rw [fixtureMatchLen] at h
  obtain ⟨hp, v, hv, _⟩ := litThen_eq_some h
  obtain ⟨j, v2, hj, hall, hkj, _⟩ := lazyThen_eq_some hv
  obtain ⟨hp2, _⟩ := litThen_eq_some hkj
  exact ⟨hp, cleanSchemaAt_of hall hp2⟩

/-- When no head occurrence of the text reaches a `\$schema:` token through
brace-free characters, the structural pattern matches nowhere. -/
theorem fixtureMatchLen_none_of_noClean {head l : List Char} (hne : head ≠ [])
    (h : ∀ i, i < l.length → head.isPrefixOf (l.drop i) = true →
      cleanSchemaAt (l.drop (i + head.length)) = false) :
    ∀ i, fixtureMatchLen head (l.drop i) = none := by
  intro i
  by_cases hi : i < l.length
  · cases hm : fixtureMatchLen head (l.drop i) with
    | none => rfl
    | some n =>
      obtain ⟨hp, hclean⟩ := fixtureMatchLen_clean hm
      rw [List.drop_drop] at hclean
      rw [h i hi hp] at hclean
      exact absurd hclean (by simp)
  · rw [List.drop_eq_nil_of_le (by omega)]
    exact fixtureMatchLen_nil hne

theorem prefix_append_split : ∀ (s t y : List Char), t <+: s ++ y →
    t <+: s ∨ (s <+: t ∧ t.drop s.length <+: y)
  | [], t, _, h => Or.inr ⟨List.nil_prefix, by simpa using h⟩
  | a :: s', t, y, h => by
    cases t with
    | nil => exact Or.inl List.nil_prefix
    | cons b t' =>
      rw [List.cons_append] at h
      obtain ⟨hb, ht'⟩ := List.cons_prefix_cons.mp h
      rcases prefix_append_split s' t' y ht' with h1 | ⟨h2, h3⟩
      · exact Or.inl (List.cons_prefix_cons.mpr ⟨hb, h1⟩)
      · exact Or.inr ⟨List.cons_prefix_cons.mpr ⟨hb.symm, h2⟩, by simpa using h3⟩

theorem subAllFuel_decomp (m : List Char → Option Nat) (r : List Char)
    (pos : ∀ s n, m s = some n → n ≠ 0) :
    ∀ (f : Nat) (l : List Char), l.length ≤ f → SubDecomp m r l (subAllFuel m r f l)
  | 0, [], _ => SubDecomp.nil
  | 0, _ :: _, h => by simp at h
  | _ + 1, [], _ => SubDecomp.nil
  | f + 1, c :: cs, h => by
    cases hm : m (c :: cs) with
    | none =>
      rw [show subAllFuel m r (f + 1) (c :: cs) = c :: subAllFuel m r f cs from by
        simp [subAllFuel, hm]]
      refine SubDecomp.cons hm (subAllFuel_decomp m r pos f cs ?_)
      have h1 : (c :: cs).length ≤ f + 1 := h
      simp at h1
      omega
    | some n =>
      have hn := pos _ _ hm
      rw [show subAllFuel m r (f + 1) (c :: cs) = r ++ subAllFuel m r f (List.drop n (c :: cs)) from by
        simp [subAllFuel, hm, hn]]
      refine SubDecomp.repl hm hn (by simp) (subAllFuel_decomp m r pos f _ ?_)
      have : (c :: cs).length ≤ f + 1 := h
      simp only [List.length_drop]
      simp at this
      omega

/-- `re.sub` output decomposes into copied characters and replacements. -/
theorem subAll_decomp (m : List Char → Option Nat) (r : List Char)
    (pos : ∀ s n, m s = some n → n ≠ 0) (l : List Char) :
    SubDecomp m r l (subAll m r l) :=
  subAllFuel_decomp m r pos l.length l (Nat.le_refl _)

theorem pyReplaceFuel_decomp (old new : List Char) (hne : old ≠ []) :
    ∀ (f : Nat) (l : List Char), l.length ≤ f → RepDecomp old new l (pyReplaceFuel old new f l)
  | 0, [], _ => RepDecomp.nil
  | 0, _ :: _, h => by simp at h
  | _ + 1, [], _ => RepDecomp.nil
  | f + 1, c :: cs, h => by
    by_cases hp : old.isPrefixOf (c :: cs)
    · rw [show pyReplaceFuel old new (f + 1) (c :: cs) =
        new ++ pyReplaceFuel old new f (List.drop old.length (c :: cs)) from by
          simp [pyReplaceFuel, hp]]
      refine RepDecomp.repl (List.isPrefixOf_iff_prefix.mp hp) hne
        (pyReplaceFuel_decomp old new hne f _ ?_)
      have h1 : (c :: cs).length ≤ f + 1 := h
      have h2 : 0 < old.length := List.length_pos.mpr hne
      simp only [List.length_drop]
      simp at h1
      omega
    · rw [show pyReplaceFuel old new (f + 1) (c :: cs) = c :: pyReplaceFuel old new f cs from by
        simp [pyReplaceFuel, hp]]
      refine RepDecomp.cons (fun hcon => hp (List.isPrefixOf_iff_prefix.mpr hcon))
        (pyReplaceFuel_decomp old new hne f cs ?_)
      have h1 : (c :: cs).length ≤ f + 1 := h
      simp at h1
      omega

/-- `str.replace` output decomposes into copied characters and replacements. -/
theorem pyReplace_decomp (old new : List Char) (hne : old ≠ []) (l : List Char) :
    RepDecomp old new l (pyReplace old new l) :=
  pyReplaceFuel_decomp old new hne l.length l (Nat.le_refl _)

/-- After a full `str.replace old new` pass no occurrence of `old` remains,
when `new` cannot combine with surrounding text to recreate one (no
overlap between `old` and the boundaries of `new`); the second conjunct is
the induction strengthening: a proper suffix of `old` prefixing the output
already prefixed the input. -/
theorem repDecomp_self_noOcc {old new : List Char} (hne : old ≠ [])
    (hA : ∀ j, j < new.length → ¬ old <+: (new.drop j) ∧ ¬ (new.drop j) <+: old)
    (hB : ∀ j, j < old.length → 0 < j → ¬ (old.drop j) <+: new ∧ ¬ new <+: (old.drop j)) :
    ∀ {l out : List Char}, RepDecomp old new l out →
      (∀ i, ¬ old <+: out.drop i) ∧
      (∀ j, 0 < j → j < old.length → (old.drop j) <+: out → (old.drop j) <+: l) := by
  intro l out hdec
  induction hdec with
  | nil =>
    refine ⟨fun i h => hne (List.prefix_nil.mp (by simpa using h)), fun j hj hjo h => ?_⟩
    have := List.prefix_nil.mp h
    have : old.length - j = 0 := by simpa [List.length_drop] using congrArg List.length this
    omega
  | @cons c cs out' hnm _ ih =>
    obtain ⟨ih1, ih2⟩ := ih
    constructor
    · intro i h
      cases i with
      | succ i => exact ih1 i (by simpa using h)
      | zero =>
        simp only [List.drop_zero] at h
        obtain ⟨d, old', rfl⟩ : ∃ d old', old = d :: old' := by
          cases old with
          | nil => exact absurd rfl hne
          | cons d old' => exact ⟨d, old', rfl⟩
        obtain ⟨hd, hpre⟩ := List.cons_prefix_cons.mp h
        cases old' with
        | nil => exact hnm (List.cons_prefix_cons.mpr ⟨hd, List.nil_prefix⟩)
        | cons e old'' =>
          have hlen : 1 < (d :: e :: old'').length := by simp
          have h2 := ih2 1 Nat.one_pos hlen (by simpa using hpre)
          exact hnm (List.cons_prefix_cons.mpr ⟨hd, by simpa using h2⟩)
    · intro j hj hjo h
      obtain ⟨e, v', hv⟩ : ∃ e v', old.drop j = e :: v' := by
        cases hv0 : old.drop j with
        | nil =>
          have : old.length - j = 0 := by simpa using congrArg List.length hv0
          omega
        | cons e v' => exact ⟨e, v', rfl⟩
      rw [hv] at h
      obtain ⟨he, hpre⟩ := List.cons_prefix_cons.mp h
      have hv' : old.drop (j + 1) = v' := by
        have h3 : (old.drop j).drop 1 = old.drop (j + 1) := by rw [List.drop_drop]
        rw [hv] at h3
        simpa using h3.symm
      rw [hv, he]
      by_cases hj1 : j + 1 < old.length
      · have h4 := ih2 (j + 1) (by omega) hj1 (by rw [hv']; exact hpre)
        rw [hv'] at h4
        exact List.cons_prefix_cons.mpr ⟨rfl, h4⟩
      · have hlenv : v'.length = old.length - (j + 1) := by
          have h5 := congrArg List.length hv'
          simpa using h5.symm
        have hnil : v' = [] := List.eq_nil_of_length_eq_zero (by omega)
        rw [hnil]
        exact List.cons_prefix_cons.mpr ⟨rfl, List.nil_prefix⟩
  | @repl l out' hmatch hneo _ ih =>
    obtain ⟨ih1, ih2⟩ := ih
    constructor
    · intro i h
      by_cases hi : i < new.length
      · rw [List.drop_append_of_le_length (by omega)] at h
        rcases prefix_append_split (new.drop i) old out' h with h1 | ⟨h2, _⟩
        · exact (hA i hi).1 h1
        · exact (hA i hi).2 h2
      · have hi2 : i = new.length + (i - new.length) := by omega
        rw [hi2, List.drop_append] at h
        exact ih1 _ h
    · intro j hj hjo h
      rcases prefix_append_split new (old.drop j) out' h with h1 | ⟨h2, _⟩
      · exact absurd h1 (hB j hjo hj).1
      · exact absurd h2 (hB j hjo hj).2

/-- c:   a `str.replace old new` pass cannot create an occurrence of an
unrelated literal `L` when `new` cannot combine with surrounding text to
form one; second conjunct is the induction strengthening. -/
theorem repDecomp_cross_noOcc {old new L : List Char} (hneL : L ≠ [])
    (hA : ∀ j, j < new.length → ¬ L <+: (new.drop j) ∧ ¬ (new.drop j) <+: L)
    (hB : ∀ j, j < L.length → 0 < j → ¬ (L.drop j) <+: new ∧ ¬ new <+: (L.drop j)) :
    ∀ {l out : List Char}, RepDecomp old new l out → (∀ i, ¬ L <+: l.drop i) →
      (∀ i, ¬ L <+: out.drop i) ∧
      (∀ j, 0 < j → j < L.length → (L.drop j) <+: out → (L.drop j) <+: l) := by
  intro l out hdec
  induction hdec with
  | nil =>
    intro _
    refine ⟨fun i h => hneL (List.prefix_nil.mp (by simpa using h)), fun j hj hjo h => ?_⟩
    have : L.length - j = 0 := by simpa using congrArg List.length (List.prefix_nil.mp h)
    omega
  | @cons c cs out' hnm _ ih =>
    intro hno
    obtain ⟨ih1, ih2⟩ := ih (fun i => by simpa using hno (i + 1))
    constructor
    · intro i h
      cases i with
      | succ i => exact ih1 i (by simpa using h)
      | zero =>
        simp only [List.drop_zero] at h
        obtain ⟨d, L', rfl⟩ : ∃ d L', L = d :: L' := by
          cases L with
          | nil => exact absurd rfl hneL
          | cons d L' => exact ⟨d, L', rfl⟩
        obtain ⟨hd, hpre⟩ := List.cons_prefix_cons.mp h
        cases L' with
        | nil =>
          exact hno 0 (by
            simp only [List.drop_zero]
            exact List.cons_prefix_cons.mpr ⟨hd, List.nil_prefix⟩)
        | cons e L'' =>
          have hlen : 1 < (d :: e :: L'').length := by simp
          have h2 := ih2 1 Nat.one_pos hlen (by simpa using hpre)
          exact hno 0 (by
            simp only [List.drop_zero]
            exact List.cons_prefix_cons.mpr ⟨hd, by simpa using h2⟩)
    · intro j hj hjo h
      obtain ⟨e, v', hv⟩ : ∃ e v', L.drop j = e :: v' := by
        cases hv0 : L.drop j with
        | nil =>
          have : L.length - j = 0 := by simpa using congrArg List.length hv0
          omega
        | cons e v' => exact ⟨e, v', rfl⟩
      rw [hv] at h
      obtain ⟨he, hpre⟩ := List.cons_prefix_cons.mp h
      have hv' : L.drop (j + 1) = v' := by
        have h3 : (L.drop j).drop 1 = L.drop (j + 1) := by rw [List.drop_drop]
        rw [hv] at h3
        simpa using h3.symm
      rw [hv, he]
      by_cases hj1 : j + 1 < L.length
      · have h4 := ih2 (j + 1) (by omega) hj1 (by rw [hv']; exact hpre)
        rw [hv'] at h4
        exact List.cons_prefix_cons.mpr ⟨rfl, h4⟩
      · have hlenv : v'.length = L.length - (j + 1) := by
          have h5 := congrArg List.length hv'
          simpa using h5.symm
        have hnil : v' = [] := List.eq_nil_of_length_eq_zero (by omega)
        rw [hnil]
        exact List.cons_prefix_cons.mpr ⟨rfl, List.nil_prefix⟩
  | @repl l out' hmatch hneo _ ih =>
    intro hno
    obtain ⟨ih1, ih2⟩ := ih (fun i => by
      rw [List.drop_drop]
      exact hno (old.length + i))
    constructor
    · intro i h
      by_cases hi : i < new.length
      · rw [List.drop_append_of_le_length (by omega)] at h
        rcases prefix_append_split (new.drop i) L out' h with h1 | ⟨h2, _⟩
        · exact (hA i hi).1 h1
        · exact (hA i hi).2 h2
      · have hi2 : i = new.length + (i - new.length) := by omega
        rw [hi2, List.drop_append] at h
        exact ih1 _ h
    · intro j hj hjo h
      rcases prefix_append_split new (L.drop j) out' h with h1 | ⟨h2, _⟩
      · exact absurd h1 (hB j hjo hj).1
      · exact absurd h2 (hB j hjo hj).2

/-- `str.replace` is the identity on text with no occurrence of `old`. -/
theorem pyReplaceFuel_id {old new : List Char} :
    ∀ {l : List Char}, (∀ i, ¬ old <+: l.drop i) → ∀ f, pyReplaceFuel old new f l = l
  | [], _, f => by cases f <;> rfl
  | c :: cs, h, f => by
    have h0 : old.isPrefixOf (c :: cs) = false := by
      rw [Bool.eq_false_iff]
      intro hp
      exact absurd (List.isPrefixOf_iff_prefix.mp hp) (by simpa using h 0)
    have ih : ∀ f, pyReplaceFuel old new f cs = cs :=
      pyReplaceFuel_id (fun i => by simpa using h (i + 1))
    cases f with
    | zero => rfl
    | succ f => simp [pyReplaceFuel, h0, ih f]

theorem greedyThen_eq_some {p : Char → Bool} {k : List Char → Option Nat} :
    ∀ {l : List Char} {n : Nat}, greedyThen p k l = some n →
      ∃ j v, j ≤ l.length ∧ ((l.take j).all p) = true ∧ k (l.drop j) = some v ∧ n = v + j
  | [], n, h => ⟨0, n, by simp, by simp, by simpa [greedyThen] using h, by omega⟩
  | c :: cs, n, h => by
    by_cases hpc : p c
    · cases hg : greedyThen p k cs with
      | some m =>
        have hmn : m + 1 = n := by simpa [greedyThen, hpc, hg] using h
        obtain ⟨j, v, hj, hall, hk, hv⟩ := greedyThen_eq_some hg
        exact ⟨j + 1, v, Nat.succ_le_succ hj, by simp [hpc, hall], by simpa using hk, by omega⟩
      | none =>
        have hk : k (c :: cs) = some n := by simpa [greedyThen, hpc, hg] using h
        exact ⟨0, n, by simp, by simp, by simpa using hk, by omega⟩
    · have hk : k (c :: cs) = some n := by simpa [greedyThen, hpc] using h
      exact ⟨0, n, by simp, by simp, by simpa using hk, by omega⟩

theorem lazyThen_succeeds {p : Char → Bool} {k : List Char → Option Nat} :
    ∀ {l : List Char} {j v : Nat}, ((l.take j).all p) = true → k (l.drop j) = some v →
      ∃ n, lazyThen p k l = some n
  | [], _, v, _, hk => ⟨v, by simpa [lazyThen] using hk⟩
  | c :: cs, 0, v, _, hk => by
    simp only [List.drop_zero] at hk
    exact ⟨v, by simp [lazyThen, hk]⟩
  | c :: cs, j + 1, v, hall, hk => by
    simp only [List.take_succ_cons, List.all_cons, Bool.and_eq_true] at hall
    cases hk0 : k (c :: cs) with
    | some m => exact ⟨m, by simp [lazyThen, hk0]⟩
    | none =>
      obtain ⟨n, hn⟩ := lazyThen_succeeds (l := cs) (j := j) hall.2 (by simpa using hk)
      exact ⟨n + 1, by simp [lazyThen, hk0, hall.1, hn]⟩

theorem greedyThen_succeeds {p : Char → Bool} {k : List Char → Option Nat} :
    ∀ {l : List Char} {j v : Nat}, ((l.take j).all p) = true → k (l.drop j) = some v →
      ∃ n, greedyThen p k l = some n
  | [], _, v, _, hk => ⟨v, by simpa [greedyThen] using hk⟩
  | c :: cs, 0, v, _, hk => by
    simp only [List.drop_zero] at hk
    by_cases hpc : p c
    · cases hg : greedyThen p k cs with
      | some m => exact ⟨m + 1, by simp [greedyThen, hpc, hg]⟩
      | none => exact ⟨v, by simp [greedyThen, hpc, hg, hk]⟩
    · exact ⟨v, by simp [greedyThen, hpc, hk]⟩
  | c :: cs, j + 1, v, hall, hk => by
    simp only [List.take_succ_cons, List.all_cons, Bool.and_eq_true] at hall
    obtain ⟨n, hn⟩ := greedyThen_succeeds (l := cs) (j := j) hall.2 (by simpa using hk)
    exact ⟨n + 1, by simp [greedyThen, hall.1, hn]⟩

theorem patMatch_lit_iff {t : List Char} {ps : List Tok} {s : List Char} :
    PatMatch (Tok.lit t :: ps) s ↔ t <+: s ∧ PatMatch ps (s.drop t.length) := Iff.rfl

theorem patMatch_star_iff {p : Char → Bool} {ps : List Tok} {s : List Char} :
    PatMatch (Tok.star p :: ps) s ↔
      ∃ j, ((s.take j).all p) = true ∧ PatMatch ps (s.drop j) := Iff.rfl

theorem patMatch_nil_iff {s : List Char} : PatMatch [] s ↔ True := Iff.rfl

/-- Matchability of a structural pattern coincides with the token-sequence
match predicate: success of the backtracking matcher is exactly the
existence of a split into head, brace-free window, `\$schema:`, arbitrary
middle, end marker, whitespace and `\x7d;`. -/
theorem matchable_iff_patMatch (head l : List Char) :
    (∃ n, fixtureMatchLen head l = some n) ↔ PatMatch (pats head) l := by
  simp only [pats, stW, patMatch_lit_iff, patMatch_star_iff, patMatch_nil_iff, and_true]
  constructor
  · rintro ⟨n, h⟩
    rw [fixtureMatchLen] at h
    obtain ⟨hp0, v1, h1, _⟩ := litThen_eq_some h
    obtain ⟨j1, v2, _, hall1, h2, _⟩ := lazyThen_eq_some h1
    obtain ⟨hp2, v3, h3, _⟩ := litThen_eq_some h2
    rw [afterSchema] at h3
    obtain ⟨j2, v4, _, _, h4, _⟩ := lazyThen_eq_some h3
    obtain ⟨hp4, v5, h5, _⟩ := litThen_eq_some h4
    rw [tailMatch] at h5
    obtain ⟨j3, v6, _, hall3, h6, _⟩ := greedyThen_eq_some h5
    obtain ⟨hp6, _, _, _⟩ := litThen_eq_some h6
    refine ⟨List.isPrefixOf_iff_prefix.mp hp0, j1, hall1, ?_⟩
    refine ⟨List.isPrefixOf_iff_prefix.mp hp2, j2, by simp [anyClass], ?_⟩
    refine ⟨List.isPrefixOf_iff_prefix.mp hp4, j3, hall3, ?_⟩
    exact List.isPrefixOf_iff_prefix.mp hp6
  · rintro ⟨hp0, j1, hall1, hp2, j2, -, hp4, j3, hall3, hp6⟩
    have h6 : litThen closeTok (fun _ => some 0) ((((((l.drop head.length).drop
        j1).drop schemaTok.length).drop j2).drop endMarker.length).drop j3) =
        some (0 + closeTok.length) :=
      litThen_intro (List.isPrefixOf_iff_prefix.mpr hp6) rfl
    obtain ⟨v5, hv5⟩ := greedyThen_succeeds (j := j3) hall3 h6
    have h4 : litThen endMarker tailMatch ((((l.drop head.length).drop
        j1).drop schemaTok.length).drop j2) = some (v5 + endMarker.length) :=
      litThen_intro (List.isPrefixOf_iff_prefix.mpr hp4) hv5
    obtain ⟨v3, hv3⟩ := lazyThen_succeeds (p := anyClass) (j := j2) (by simp [anyClass]) h4
    have h2 : litThen schemaTok afterSchema ((l.drop head.length).drop j1) =
        some (v3 + schemaTok.length) :=
      litThen_intro (List.isPrefixOf_iff_prefix.mpr hp2) hv3
    obtain ⟨v1, hv1⟩ := lazyThen_succeeds (p := nbClass) (j := j1) hall1 h2
    refine ⟨v1 + head.length, ?_⟩
    rw [fixtureMatchLen]
    exact litThen_intro (List.isPrefixOf_iff_prefix.mpr hp0) hv1

theorem patMatch_cons_star {p : Char → Bool} {ps : List Tok} {c : Char} {s : List Char}
    (hpc : p c = true) (h : PatMatch (Tok.star p :: ps) s) :
    PatMatch (Tok.star p :: ps) (c :: s) := by
  obtain ⟨j, hall, hrest⟩ := h
  exact ⟨j + 1, by simp [hpc, hall], by simpa using hrest⟩

theorem patMatch_prepend_all {p : Char → Bool} {ps : List Tok} :
    ∀ (u : List Char), ((u.all p) = true) → ∀ {s : List Char},
      PatMatch (Tok.star p :: ps) s → PatMatch (Tok.star p :: ps) (u ++ s)
  | [], _, _, h => h
  | c :: u, hall, s, h => by
    simp only [List.all_cons, Bool.and_eq_true] at hall
    exact patMatch_cons_star hall.1 (patMatch_prepend_all u hall.2 h)

/-- A literal-headed state cannot match at a boundary it cannot overlap. -/
theorem patMatch_lit_through {t : List Char} {ps : List Tok} {u X : List Char}
    (h : PatMatch (Tok.lit t :: ps) (u ++ X)) (h1 : ¬ t <+: u) (h2 : ¬ u <+: t) : False := by
  obtain ⟨hp, _⟩ := h
  rcases prefix_append_split u t X hp with hl | ⟨hr, _⟩
  · exact h1 hl
  · exact h2 hr

/-- A star-then-literal state matching across a segment `u` whose interior
cannot contain the literal either crosses `u` entirely inside the star, or
fires the literal across the right boundary of `u`. -/
theorem patMatch_star_through {p : Char → Bool} {t : List Char} {ps : List Tok} {u X : List Char}
    (h : PatMatch (Tok.star p :: Tok.lit t :: ps) (u ++ X))
    (hin : ∀ j, j < u.length → ¬ t <+: (u.drop j)) :
    ((u.all p) = true ∧ PatMatch (Tok.star p :: Tok.lit t :: ps) X) ∨
    (∃ j, j < u.length ∧ ((u.take j).all p) = true ∧ (u.drop j) <+: t ∧
      PatMatch (Tok.lit (t.drop (u.length - j)) :: ps) X) := by
  obtain ⟨j, hall, hrest⟩ := h
  by_cases hj : j < u.length
  · rw [List.drop_append_of_le_length (by omega)] at hrest
    obtain ⟨hp, hrest2⟩ := hrest
    rcases prefix_append_split (u.drop j) t X hp with hl | ⟨hr, hdp⟩
    · exact absurd hl (hin j hj)
    · right
      refine ⟨j, hj, ?_, hr, ?_⟩
      · rw [List.take_append_of_le_length (by omega)] at hall
        exact hall
      · rw [patMatch_lit_iff]
        refine ⟨by simpa [List.length_drop] using hdp, ?_⟩
        have hlen : (u.drop j).length ≤ t.length := hr.length_le
        have heq : t.length = (u.drop j).length + (t.length - (u.drop j).length) := by omega
        rw [heq, List.drop_append] at hrest2
        simpa [List.length_drop] using hrest2
  · have hj2 : j = u.length + (j - u.length) := by omega
    have htake : (u ++ X).take j = u ++ X.take (j - u.length) := by
      conv_lhs => rw [hj2]
      rw [List.take_append]
    rw [htake, List.all_append, Bool.and_eq_true] at hall
    left
    refine ⟨hall.1, j - u.length, hall.2, ?_⟩
    rw [hj2] at hrest
    rw [List.drop_append] at hrest
    exact hrest

/-- Rebuild a star-then-literal match when the literal fires across the
right boundary of the prepended word `w1 ++ u1`. -/
theorem patMatch_cross_rebuild {p : Char → Bool} {ps : List Tok} {t : List Char}
    {w1 u1 rest : List Char} (hw1 : (w1.all p) = true) (hu1 : u1 <+: t)
    (hres : PatMatch (Tok.lit (t.drop u1.length) :: ps) rest) :
    PatMatch (Tok.star p :: Tok.lit t :: ps) (w1 ++ (u1 ++ rest)) := by
  refine ⟨w1.length, ?_, ?_⟩
  · rw [List.take_append_of_le_length (Nat.le_refl _ |>.trans (by simp))]
    simpa using hw1
  · rw [show w1.length = w1.length + 0 from rfl, List.drop_append]
    simp only [List.drop_zero]
    obtain ⟨hpre, hrest⟩ := hres
    obtain ⟨r2, hr2⟩ := hpre
    refine ⟨?_, ?_⟩
    · refine ⟨r2, ?_⟩
      obtain ⟨t2, ht2⟩ := hu1
      have ht : t = u1 ++ t.drop u1.length := by
        conv_lhs => rw [← ht2]
        rw [← ht2]
        simp
      rw [ht, List.append_assoc, hr2]
    · have hlen : t.length = u1.length + (t.drop u1.length).length := by
        have := hu1.length_le
        simp only [List.length_drop]
        omega
      rw [hlen, List.drop_append]
      exact hrest

theorem stateOf_not_emptyLit {h : List Char} {ps : List Tok}
    (hq : StateOf h (Tok.lit [] :: ps)) : False := by
  rcases hq with ⟨k, hk, he⟩ | he | ⟨k, hk, he⟩ | he | ⟨k, hk, he⟩ | he | ⟨k, hk, he⟩ | he
  · have h2 := (List.cons.inj he).1
    rw [Tok.lit.injEq] at h2
    have h3 := congrArg List.length h2
    simp at h3
    omega
  · simp [stW] at he
  · have h2 := (List.cons.inj he).1
    rw [Tok.lit.injEq] at h2
    have h3 := congrArg List.length h2
    simp at h3
    omega
  · simp [stA] at he
  · have h2 := (List.cons.inj he).1
    rw [Tok.lit.injEq] at h2
    have h3 := congrArg List.length h2
    simp at h3
    omega
  · simp [stS] at he
  · have h2 := (List.cons.inj he).1
    rw [Tok.lit.injEq] at h2
    have h3 := congrArg List.length h2
    simp at h3
    omega
  · simp at he

theorem drop_cons_succ {l : List Char} {k : Nat} {d : Char} {t : List Char}
    (h : l.drop k = d :: t) : l.drop (k + 1) = t := by
  have h3 : (l.drop k).drop 1 = l.drop (k + 1) := by rw [List.drop_drop]
  rw [h] at h3
  simpa using h3.symm

theorem lt_length_of_drop_ne_nil {l : List Char} {k : Nat} (h : l.drop k ≠ []) :
    k < l.length := by
  by_contra hcon
  push_neg at hcon
  exact h (List.drop_eq_nil_of_le hcon)

theorem stateOf_down_lit {h : List Char} {d : Char} {t : List Char} {ps : List Tok}
    (hq : StateOf h (Tok.lit (d :: t) :: ps)) (ht : t ≠ []) : StateOf h (Tok.lit t :: ps) := by
  rcases hq with ⟨k, hk, he⟩ | he | ⟨k, hk, he⟩ | he | ⟨k, hk, he⟩ | he | ⟨k, hk, he⟩ | he
  · obtain ⟨he1, he2⟩ := List.cons.inj he
    rw [Tok.lit.injEq] at he1
    have hdt := drop_cons_succ he1.symm
    exact Or.inl ⟨k + 1, lt_length_of_drop_ne_nil (by rw [hdt]; exact ht), by rw [hdt, he2]⟩
  · simp [stW] at he
  · obtain ⟨he1, he2⟩ := List.cons.inj he
    rw [Tok.lit.injEq] at he1
    have hdt := drop_cons_succ he1.symm
    exact Or.inr (Or.inr (Or.inl ⟨k + 1, lt_length_of_drop_ne_nil (by rw [hdt]; exact ht),
      by rw [hdt, he2]⟩))
  · simp [stA] at he
  · obtain ⟨he1, he2⟩ := List.cons.inj he
    rw [Tok.lit.injEq] at he1
    have hdt := drop_cons_succ he1.symm
    exact Or.inr (Or.inr (Or.inr (Or.inr (Or.inl ⟨k + 1,
      lt_length_of_drop_ne_nil (by rw [hdt]; exact ht), by rw [hdt, he2]⟩))))
  · simp [stS] at he
  · obtain ⟨he1, he2⟩ := List.cons.inj he
    rw [Tok.lit.injEq] at he1
    have hdt := drop_cons_succ he1.symm
    exact Or.inr (Or.inr (Or.inr (Or.inr (Or.inr (Or.inr (Or.inl ⟨k + 1,
      lt_length_of_drop_ne_nil (by rw [hdt]; exact ht), by rw [hdt, he2]⟩))))))
  · simp at he

theorem stateOf_down_litOne {h : List Char} {d : Char} {ps : List Tok}
    (hq : StateOf h (Tok.lit [d] :: ps)) : StateOf h ps := by
  rcases hq with ⟨k, hk, he⟩ | he | ⟨k, hk, he⟩ | he | ⟨k, hk, he⟩ | he | ⟨k, hk, he⟩ | he
  · obtain ⟨-, he2⟩ := List.cons.inj he
    rw [he2]
    exact Or.inr (Or.inl rfl)
  · simp [stW] at he
  · obtain ⟨-, he2⟩ := List.cons.inj he
    rw [he2]
    exact Or.inr (Or.inr (Or.inr (Or.inl rfl)))
  · simp [stA] at he
  · obtain ⟨-, he2⟩ := List.cons.inj he
    rw [he2]
    exact Or.inr (Or.inr (Or.inr (Or.inr (Or.inr (Or.inl rfl)))))
  · simp [stS] at he
  · obtain ⟨-, he2⟩ := List.cons.inj he
    rw [he2]
    exact Or.inr (Or.inr (Or.inr (Or.inr (Or.inr (Or.inr (Or.inr rfl))))))
  · simp at he

theorem stateOf_down_star {h : List Char} {p : Char → Bool} {ps : List Tok}
    (hq : StateOf h (Tok.star p :: ps)) : StateOf h ps := by
  rcases hq with ⟨k, hk, he⟩ | he | ⟨k, hk, he⟩ | he | ⟨k, hk, he⟩ | he | ⟨k, hk, he⟩ | he
  · simp [stW] at he
  · simp only [stW] at he
    obtain ⟨-, he2⟩ := List.cons.inj he
    rw [he2]
    exact Or.inr (Or.inr (Or.inl ⟨0, by decide, by simp [stA]⟩))
  · simp [stA] at he
  · simp only [stA] at he
    obtain ⟨-, he2⟩ := List.cons.inj he
    rw [he2]
    exact Or.inr (Or.inr (Or.inr (Or.inr (Or.inl ⟨0, by decide, by simp [stS]⟩))))
  · simp [stS] at he
  · simp only [stS] at he
    obtain ⟨-, he2⟩ := List.cons.inj he
    rw [he2]
    exact Or.inr (Or.inr (Or.inr (Or.inr (Or.inr (Or.inr (Or.inl ⟨0, by decide, by simp⟩))))))
  · simp at he
  · simp at he

/-- Transfer of every residual state across one copied character of a
substitution pass: if every state that matches the transformed tail also
matches the original tail, the same holds with the copied character put in
front of both. -/
theorem patMatch_cons_transfer {h : List Char} {c : Char} {out' cs : List Char}
    (H : ∀ q', StateOf h q' → PatMatch q' out' → PatMatch q' cs) :
    ∀ (q : List Tok), StateOf h q → PatMatch q (c :: out') → PatMatch q (c :: cs)
  | [], _, _ => trivial
  | Tok.lit [] :: _, hq, _ => (stateOf_not_emptyLit hq).elim
  | Tok.lit (d :: t) :: ps, hq, pm => by
    obtain ⟨hpre, hrest⟩ := pm
    obtain ⟨hd, ht⟩ := List.cons_prefix_cons.mp hpre
    cases t with
    | nil =>
      have hps : StateOf h ps := stateOf_down_litOne hq
      have hrest' : PatMatch ps out' := by simpa using hrest
      have h2 := H ps hps hrest'
      exact ⟨List.cons_prefix_cons.mpr ⟨hd, List.nil_prefix⟩, by simpa using h2⟩
    | cons e t' =>
      have hq' : StateOf h (Tok.lit (e :: t') :: ps) := stateOf_down_lit hq (by simp)
      have pm' : PatMatch (Tok.lit (e :: t') :: ps) out' := ⟨ht, by simpa using hrest⟩
      obtain ⟨ht2, hrest2⟩ := H _ hq' pm'
      exact ⟨List.cons_prefix_cons.mpr ⟨hd, ht2⟩, by simpa using hrest2⟩
  | Tok.star p :: ps, hq, pm => by
    obtain ⟨j, hall, hrest⟩ := pm
    cases j with
    | zero =>
      have hps : StateOf h ps := stateOf_down_star hq
      have hrest' : PatMatch ps (c :: out') := by simpa using hrest
      have h2 := patMatch_cons_transfer H ps hps hrest'
      exact ⟨0, by simp, by simpa using h2⟩
    | succ j =>
      simp only [List.take_succ_cons, List.all_cons, Bool.and_eq_true] at hall
      have pm' : PatMatch (Tok.star p :: ps) out' := ⟨j, hall.2, by simpa using hrest⟩
      exact patMatch_cons_star hall.1 (H _ hq pm')

theorem stateOf_pats {h : List Char} (hne : h ≠ []) : StateOf h (pats h) :=
  Or.inl ⟨0, List.length_pos.mpr hne, by simp [pats]⟩

theorem fixtureMatchLen_pos {head l : List Char} {n : Nat} (hne : head ≠ [])
    (h : fixtureMatchLen head l = some n) : n ≠ 0 := by
  rw [fixtureMatchLen] at h
  obtain ⟨-, v, -, hn⟩ := litThen_eq_some h
  have : 0 < head.length := List.length_pos.mpr hne
  omega

/-- A span matched by a structural pattern itself satisfies the window and
after-schema residual states: the span provides its own `\$schema:`, end
marker, whitespace and `\x7d;` (the two structural patterns share all
tokens except the head literal). -/
theorem span_patMatch_states {hY l : List Char} {n : Nat}
    (h : fixtureMatchLen hY l = some n) (hnb : (hY.all nbClass) = true) :
    PatMatch stW l ∧ PatMatch stA l := by
  rw [fixtureMatchLen] at h
  obtain ⟨hp0, v1, h1, _⟩ := litThen_eq_some h
  obtain ⟨j1, v2, _, hall1, h2, _⟩ := lazyThen_eq_some h1
  obtain ⟨hp2, v3, h3, _⟩ := litThen_eq_some h2
  rw [afterSchema] at h3
  obtain ⟨j2, v4, _, _, h4, _⟩ := lazyThen_eq_some h3
  obtain ⟨hp4, v5, h5, _⟩ := litThen_eq_some h4
  rw [tailMatch] at h5
  obtain ⟨j3, v6, _, hall3, h6, _⟩ := greedyThen_eq_some h5
  obtain ⟨hp6, -, -, -⟩ := litThen_eq_some h6
  rw [List.isPrefixOf_iff_prefix] at hp0 hp2 hp4 hp6
  obtain ⟨tail0, rfl⟩ := hp0
  have hdl : (hY ++ tail0).drop hY.length = tail0 := List.drop_left _ _
  rw [hdl] at hall1 hp2 hp4 hp6 hall3
  constructor
  · simp only [stW, patMatch_star_iff, patMatch_lit_iff, patMatch_nil_iff, and_true]
    refine ⟨hY.length + j1, ?_, ?_⟩
    · rw [List.take_append, List.all_append, Bool.and_eq_true]
      exact ⟨hnb, hall1⟩
    · rw [List.drop_append]
      refine ⟨hp2, j2, by simp [anyClass], hp4, j3, hall3, hp6⟩
  · simp only [stA, patMatch_star_iff, patMatch_lit_iff, patMatch_nil_iff, and_true]
    refine ⟨hY.length + (j1 + (schemaTok.length + j2)), by simp [anyClass], ?_⟩
    rw [List.drop_append]
    have hd2 : ((tail0.drop j1).drop schemaTok.length).drop j2 =
        tail0.drop (j1 + (schemaTok.length + j2)) := by
      rw [List.drop_drop, List.drop_drop]
    rw [← hd2]
    exact ⟨hp4, j3, hall3, hp6⟩

/-- A `str.replace old new` pass preserves the absence of structural-pattern
matches, under decidable non-overlap conditions between the pattern's tokens
and the replacement `new`; the single genuine crossing (a suffix of `new`
prefixing the end marker) is transferred through the equal suffix of `old`.
The second conjunct is the induction strengthening over residual states. -/
theorem repDecomp_pat_noMatch {old new h : List Char} (hne : h ≠ [])
    (hOldNb : (old.all nbClass) = true)
    (hNewWs : (new.all isPySpace) = false)
    (hHead : ∀ j, j < new.length → ¬ h <+: (new.drop j) ∧ ¬ (new.drop j) <+: h)
    (hB1 : ∀ k, k < h.length → ¬ (h.drop k) <+: new ∧ ¬ new <+: (h.drop k))
    (hB2 : ∀ k, k < schemaTok.length → ¬ (schemaTok.drop k) <+: new ∧ ¬ new <+: (schemaTok.drop k))
    (hB3 : ∀ k, k < endMarker.length → ¬ (endMarker.drop k) <+: new ∧ ¬ new <+: (endMarker.drop k))
    (hB4 : ∀ k, k < closeTok.length → ¬ (closeTok.drop k) <+: new ∧ ¬ new <+: (closeTok.drop k))
    (hIn2 : ∀ j, j < new.length → ¬ schemaTok <+: (new.drop j))
    (hIn3 : ∀ j, j < new.length → ¬ endMarker <+: (new.drop j))
    (hIn4 : ∀ j, j < new.length → ¬ closeTok <+: (new.drop j))
    (hX2 : ∀ j, j < new.length → ¬ (new.drop j) <+: schemaTok)
    (hX4 : ∀ j, j < new.length → ¬ (new.drop j) <+: closeTok)
    (hCr3 : ∀ j, j < new.length → (new.drop j) <+: endMarker →
      new.length - j ≤ old.length ∧ new.length - j < endMarker.length ∧
      old.drop (old.length - (new.length - j)) = new.drop j) :
    ∀ {l out : List Char}, RepDecomp old new l out →
      (∀ i, ¬ PatMatch (pats h) (l.drop i)) →
      (∀ i, ¬ PatMatch (pats h) (out.drop i)) ∧
      (∀ q, StateOf h q → PatMatch q out → PatMatch q l) := by
  intro l out hdec
  induction hdec with
  | nil =>
    intro hno
    exact ⟨hno, fun _ _ pm => pm⟩
  | @cons c cs out' hnm hdec' ih =>
    intro hno
    obtain ⟨ih1, ih2⟩ := ih (fun i => by simpa using hno (i + 1))
    have inv2 := patMatch_cons_transfer (c := c) ih2
    refine ⟨?_, fun q hq pm => inv2 q hq pm⟩
    intro i
    cases i with
    | zero =>
      intro pm
      exact hno 0 (by simpa using inv2 (pats h) (stateOf_pats hne) (by simpa using pm))
    | succ i =>
      intro pm
      exact ih1 i (by simpa using pm)
  | @repl l out'' hpre hneo hdec' ih =>
    intro hno
    obtain ⟨r, rfl⟩ := hpre
    have hrr : (old ++ r).drop old.length = r := List.drop_left _ _
    rw [hrr] at ih
    obtain ⟨ih1, ih2⟩ := ih (fun i => by simpa [List.drop_append] using hno (old.length + i))
    constructor
    · intro i pm
      by_cases hi : i < new.length
      · rw [List.drop_append_of_le_length (by omega)] at pm
        exact patMatch_lit_through pm (hHead i hi).1 (hHead i hi).2
      · rw [show i = new.length + (i - new.length) from by omega, List.drop_append] at pm
        exact ih1 _ pm
    · intro q hq pm
      rcases hq with ⟨k, hk, rfl⟩ | rfl | ⟨k, hk, rfl⟩ | rfl | ⟨k, hk, rfl⟩ | rfl | ⟨k, hk, rfl⟩ | rfl
      · exact (patMatch_lit_through pm (hB1 k hk).1 (hB1 k hk).2).elim
      · have pmu : PatMatch (Tok.star nbClass :: Tok.lit schemaTok :: stA) (new ++ out'') := by
          simpa [stW, stA] using pm
        rcases patMatch_star_through pmu hIn2 with ⟨-, pmX⟩ | ⟨j, hj, -, hcross, -⟩
        · have hW : PatMatch stW out'' := by simpa [stW, stA] using pmX
          have hWr := ih2 stW (Or.inr (Or.inl rfl)) hW
          show PatMatch stW (old ++ r)
          simpa [stW, stA] using patMatch_prepend_all old hOldNb
            (by simpa [stW, stA] using hWr)
        · exact absurd hcross (hX2 j hj)
      · exact (patMatch_lit_through pm (hB2 k hk).1 (hB2 k hk).2).elim
      · have pmu : PatMatch (Tok.star anyClass :: Tok.lit endMarker :: stS) (new ++ out'') := by
          simpa [stA, stS] using pm
        rcases patMatch_star_through pmu hIn3 with ⟨-, pmX⟩ | ⟨j, hj, -, hcross, pmres⟩
        · have hA : PatMatch stA out'' := by simpa [stA, stS] using pmX
          have hAr := ih2 stA (Or.inr (Or.inr (Or.inr (Or.inl rfl)))) hA
          show PatMatch stA (old ++ r)
          simpa [stA, stS] using patMatch_prepend_all old (by simp [anyClass])
            (by simpa [stA, stS] using hAr)
        · obtain ⟨hsle, hslt, heq⟩ := hCr3 j hj hcross
          have hstate : StateOf h (Tok.lit (endMarker.drop (new.length - j)) :: stS) :=
            Or.inr (Or.inr (Or.inr (Or.inr (Or.inl ⟨new.length - j, hslt, rfl⟩))))
          have pmr := ih2 _ hstate (by simpa [stS] using pmres)
          have hsplit : old ++ r = (old.take (old.length - (new.length - j))) ++
              ((old.drop (old.length - (new.length - j))) ++ r) := by
            rw [← List.append_assoc, List.take_append_drop]
          show PatMatch stA (old ++ r)
          rw [hsplit]
          have hu1 : old.drop (old.length - (new.length - j)) <+: endMarker := by
            rw [heq]
            exact hcross
          have hres' : PatMatch (Tok.lit (endMarker.drop
              (old.drop (old.length - (new.length - j))).length) :: stS) r := by
            have hl2 : (old.drop (old.length - (new.length - j))).length = new.length - j := by
              simp only [List.length_drop]
              omega
            rw [hl2]
            exact pmr
          simpa [stA, stS] using patMatch_cross_rebuild (by simp [anyClass]) hu1 hres'
      · exact (patMatch_lit_through pm (hB3 k hk).1 (hB3 k hk).2).elim
      · have pmu : PatMatch (Tok.star isPySpace :: Tok.lit closeTok :: ([] : List Tok))
            (new ++ out'') := by
          simpa [stS] using pm
        rcases patMatch_star_through pmu hIn4 with ⟨hallN, -⟩ | ⟨j, hj, -, hcross, -⟩
        · exact absurd hallN (by simp [hNewWs])
        · exact absurd hcross (hX4 j hj)
      · exact (patMatch_lit_through pm (hB4 k hk).1 (hB4 k hk).2).elim
      · exact trivial

/-- Residual-state transfer across a replaced span of a structural
substitution pass: a state matching at the replacement boundary either is a
window or after-schema state — which the replaced span itself satisfies,
since the two structural patterns share every token but the head — or is
excluded by non-overlap of the pattern tokens with the replacement text. -/
theorem subBoundary_inv2 {hY rY hX : List Char} {l out'' : List Char} {n : Nat}
    (hm : fixtureMatchLen hY l = some n) (hnbY : (hY.all nbClass) = true)
    (hB1 : ∀ k, k < hX.length → ¬ (hX.drop k) <+: rY ∧ ¬ rY <+: (hX.drop k))
    (hB2 : ∀ k, k < schemaTok.length → ¬ (schemaTok.drop k) <+: rY ∧ ¬ rY <+: (schemaTok.drop k))
    (hB3 : ∀ k, k < endMarker.length → ¬ (endMarker.drop k) <+: rY ∧ ¬ rY <+: (endMarker.drop k))
    (hB4 : ∀ k, k < closeTok.length → ¬ (closeTok.drop k) <+: rY ∧ ¬ rY <+: (closeTok.drop k))
    (hIn4 : ∀ j, j < rY.length → ¬ closeTok <+: (rY.drop j))
    (hX4 : ∀ j, j < rY.length → ¬ (rY.drop j) <+: closeTok)
    (hWs : (rY.all isPySpace) = false) :
    ∀ q, StateOf hX q → PatMatch q (rY ++ out'') → PatMatch q l := by
  intro q hq pm
  rcases hq with ⟨k, hk, rfl⟩ | rfl | ⟨k, hk, rfl⟩ | rfl | ⟨k, hk, rfl⟩ | rfl | ⟨k, hk, rfl⟩ | rfl
  · exact (patMatch_lit_through pm (hB1 k hk).1 (hB1 k hk).2).elim
  · exact (span_patMatch_states hm hnbY).1
  · exact (patMatch_lit_through pm (hB2 k hk).1 (hB2 k hk).2).elim
  · exact (span_patMatch_states hm hnbY).2
  · exact (patMatch_lit_through pm (hB3 k hk).1 (hB3 k hk).2).elim
  · have pmu : PatMatch (Tok.star isPySpace :: Tok.lit closeTok :: ([] : List Tok))
        (rY ++ out'') := by
      simpa [stS] using pm
    rcases patMatch_star_through pmu hIn4 with ⟨hallN, -⟩ | ⟨j, hj, -, hcross, -⟩
    · exact absurd hallN (by simp [hWs])
    · exact absurd hcross (hX4 j hj)
  · exact (patMatch_lit_through pm (hB4 k hk).1 (hB4 k hk).2).elim
  · exact trivial

/-- A structural substitution pass leaves no match of its own pattern in its
output: every surviving position was scanned and rejected, matches cannot
begin inside the replacement text, and residual states crossing a replaced
span are satisfied by the span itself. -/
theorem subDecomp_pat_self {hY rY : List Char} (hne : hY ≠ [])
    (hnbY : (hY.all nbClass) = true)
    (hHead : ∀ j, j < rY.length → ¬ hY <+: (rY.drop j) ∧ ¬ (rY.drop j) <+: hY)
    (hB1 : ∀ k, k < hY.length → ¬ (hY.drop k) <+: rY ∧ ¬ rY <+: (hY.drop k))
    (hB2 : ∀ k, k < schemaTok.length → ¬ (schemaTok.drop k) <+: rY ∧ ¬ rY <+: (schemaTok.drop k))
    (hB3 : ∀ k, k < endMarker.length → ¬ (endMarker.drop k) <+: rY ∧ ¬ rY <+: (endMarker.drop k))
    (hB4 : ∀ k, k < closeTok.length → ¬ (closeTok.drop k) <+: rY ∧ ¬ rY <+: (closeTok.drop k))
    (hIn4 : ∀ j, j < rY.length → ¬ closeTok <+: (rY.drop j))
    (hX4 : ∀ j, j < rY.length → ¬ (rY.drop j) <+: closeTok)
    (hWs : (rY.all isPySpace) = false) :
    ∀ {l out : List Char}, SubDecomp (fixtureMatchLen hY) rY l out →
      (∀ i, ¬ PatMatch (pats hY) (out.drop i)) ∧
      (∀ q, StateOf hY q → PatMatch q out → PatMatch q l) := by
  intro l out hdec
  induction hdec with
  | nil =>
    refine ⟨fun i pm => ?_, fun _ _ pm => pm⟩
    rw [List.drop_nil] at pm
    exact hne (List.prefix_nil.mp pm.1)
  | @cons c cs out' hm hdec' ih =>
    obtain ⟨ih1, ih2⟩ := ih
    have inv2 := patMatch_cons_transfer (c := c) ih2
    refine ⟨?_, fun q hq pm => inv2 q hq pm⟩
    intro i
    cases i with
    | zero =>
      intro pm
      have h2 : PatMatch (pats hY) (c :: cs) := by
        simpa using inv2 (pats hY) (stateOf_pats hne) (by simpa using pm)
      obtain ⟨n2, hn2⟩ := (matchable_iff_patMatch hY (c :: cs)).mpr h2
      rw [hm] at hn2
      exact Option.noConfusion hn2
    | succ i =>
      intro pm
      exact ih1 i (by simpa using pm)
  | @repl l out'' n hm hn hl hdec' ih =>
    obtain ⟨ih1, ih2⟩ := ih
    constructor
    · intro i pm
      by_cases hi : i < rY.length
      · rw [List.drop_append_of_le_length (by omega)] at pm
        exact patMatch_lit_through pm (hHead i hi).1 (hHead i hi).2
      · rw [show i = rY.length + (i - rY.length) from by omega, List.drop_append] at pm
        exact ih1 _ pm
    · exact subBoundary_inv2 hm hnbY hB1 hB2 hB3 hB4 hIn4 hX4 hWs

/-- A structural substitution pass for one head preserves the absence of
matches of the other structural pattern. -/
theorem subDecomp_pat_cross {hY rY hX : List Char} (hneX : hX ≠ [])
    (hnbY : (hY.all nbClass) = true)
    (hHead : ∀ j, j < rY.length → ¬ hX <+: (rY.drop j) ∧ ¬ (rY.drop j) <+: hX)
    (hB1 : ∀ k, k < hX.length → ¬ (hX.drop k) <+: rY ∧ ¬ rY <+: (hX.drop k))
    (hB2 : ∀ k, k < schemaTok.length → ¬ (schemaTok.drop k) <+: rY ∧ ¬ rY <+: (schemaTok.drop k))
    (hB3 : ∀ k, k < endMarker.length → ¬ (endMarker.drop k) <+: rY ∧ ¬ rY <+: (endMarker.drop k))
    (hB4 : ∀ k, k < closeTok.length → ¬ (closeTok.drop k) <+: rY ∧ ¬ rY <+: (closeTok.drop k))
    (hIn4 : ∀ j, j < rY.length → ¬ closeTok <+: (rY.drop j))
    (hX4 : ∀ j, j < rY.length → ¬ (rY.drop j) <+: closeTok)
    (hWs : (rY.all isPySpace) = false) :
    ∀ {l out : List Char}, SubDecomp (fixtureMatchLen hY) rY l out →
      (∀ i, ¬ PatMatch (pats hX) (l.drop i)) →
      (∀ i, ¬ PatMatch (pats hX) (out.drop i)) ∧
      (∀ q, StateOf hX q → PatMatch q out → PatMatch q l) := by
  intro l out hdec
  induction hdec with
  | nil =>
    intro hno
    exact ⟨hno, fun _ _ pm => pm⟩
  | @cons c cs out' hm hdec' ih =>
    intro hno
    obtain ⟨ih1, ih2⟩ := ih (fun i => by simpa using hno (i + 1))
    have inv2 := patMatch_cons_transfer (c := c) ih2
    refine ⟨?_, fun q hq pm => inv2 q hq pm⟩
    intro i
    cases i with
    | zero =>
      intro pm
      exact hno 0 (by simpa using inv2 (pats hX) (stateOf_pats hneX) (by simpa using pm))
    | succ i =>
      intro pm
      exact ih1 i (by simpa using pm)
  | @repl l out'' n hm hn hl hdec' ih =>
    intro hno
    obtain ⟨ih1, ih2⟩ := ih (fun i => by simpa [List.drop_drop] using hno (n + i))
    constructor
    · intro i pm
      by_cases hi : i < rY.length
      · rw [List.drop_append_of_le_length (by omega)] at pm
        exact patMatch_lit_through pm (hHead i hi).1 (hHead i hi).2
      · rw [show i = rY.length + (i - rY.length) from by omega, List.drop_append] at pm
        exact ih1 _ pm
    · exact subBoundary_inv2 hm hnbY hB1 hB2 hB3 hB4 hIn4 hX4 hWs

theorem fixtureMatchLen_none_of_noPat {h l : List Char}
    (hno : ∀ i, ¬ PatMatch (pats h) (l.drop i)) :
    ∀ i, fixtureMatchLen h (l.drop i) = none := by
  intro i
  cases hm : fixtureMatchLen h (l.drop i) with
  | none => rfl
  | some n => exact absurd ((matchable_iff_patMatch _ _).mp ⟨n, hm⟩) (hno i)

/-- A text with no structural match and no rename occurrence is a fixed
point of the whole migration. -/
theorem fixContent_id_of_clean {u : List Char}
    (P1 : ∀ i, ¬ PatMatch (pats head1) (u.drop i))
    (P2 : ∀ i, ¬ PatMatch (pats head2) (u.drop i))
    (O1 : ∀ i, ¬ r1old <+: u.drop i) (O2 : ∀ i, ¬ r2old <+: u.drop i)
    (O3 : ∀ i, ¬ r3old <+: u.drop i) (O4 : ∀ i, ¬ r4old <+: u.drop i) :
    fixContent u = u := by
  have e1 : subAll (fixtureMatchLen head1) repl1 u = u := by
    rw [subAll]
    exact subAllFuel_id (fixtureMatchLen_none_of_noPat P1) _
  have e2 : subAll (fixtureMatchLen head2) repl2 u = u := by
    rw [subAll]
    exact subAllFuel_id (fixtureMatchLen_none_of_noPat P2) _
  have e3 : pyReplace r1old r1new u = u := by
    rw [pyReplace]
    exact pyReplaceFuel_id O1 _
  have e4 : pyReplace r2old r2new u = u := by
    rw [pyReplace]
    exact pyReplaceFuel_id O2 _
  have e5 : pyReplace r3old r3new u = u := by
    rw [pyReplace]
    exact pyReplaceFuel_id O3 _
  have e6 : pyReplace r4old r4new u = u := by
    rw [pyReplace]
    exact pyReplaceFuel_id O4 _
  rw [fixContent, e1, e2, e3, e4, e5, e6]

/-- The migrated text contains no structural-pattern match and no rename
occurrence, hence is a fixed point of the migration. -/
theorem fixContent_fixpoint (t : List Char) : fixContent (fixContent t) = fixContent t := by
  have hne1 : head1 ≠ [] := by decide
  have hne2 : head2 ≠ [] := by decide
  have pos1 : ∀ s n, fixtureMatchLen head1 s = some n → n ≠ 0 :=
    fun _ _ h => fixtureMatchLen_pos hne1 h
  have pos2 : ∀ s n, fixtureMatchLen head2 s = some n → n ≠ 0 :=
    fun _ _ h => fixtureMatchLen_pos hne2 h
  have A1 : ∀ i, ¬ PatMatch (pats head1)
      ((subAll (fixtureMatchLen head1) repl1 t).drop i) :=
    (subDecomp_pat_self hne1 (by decide) (by decide) (by decide) (by decide) (by decide)
      (by decide) (by decide) (by decide) (by decide) (subAll_decomp _ _ pos1 t)).1
  have A2a : ∀ i, ¬ PatMatch (pats head2)
      ((subAll (fixtureMatchLen head2) repl2 (subAll (fixtureMatchLen head1) repl1 t)).drop i) :=
    (subDecomp_pat_self hne2 (by decide) (by decide) (by decide) (by decide) (by decide)
      (by decide) (by decide) (by decide) (by decide)
      (subAll_decomp _ _ pos2 (subAll (fixtureMatchLen head1) repl1 t))).1
  have A2b : ∀ i, ¬ PatMatch (pats head1)
      ((subAll (fixtureMatchLen head2) repl2 (subAll (fixtureMatchLen head1) repl1 t)).drop i) :=
    (subDecomp_pat_cross hne1 (by decide) (by decide) (by decide) (by decide) (by decide)
      (by decide) (by decide) (by decide) (by decide)
      (subAll_decomp _ _ pos2 (subAll (fixtureMatchLen head1) repl1 t)) A1).1
  have B1a : ∀ i, ¬ PatMatch (pats head1)
      ((pyReplace r1old r1new (subAll (fixtureMatchLen head2) repl2
        (subAll (fixtureMatchLen head1) repl1 t))).drop i) :=
    (repDecomp_pat_noMatch hne1 (by decide) (by decide) (by decide) (by decide) (by decide)
      (by decide) (by decide) (by decide) (by decide) (by decide) (by decide) (by decide)
      (by decide) (pyReplace_decomp r1old r1new (by decide) _) A2b).1
  have B1b : ∀ i, ¬ PatMatch (pats head2)
      ((pyReplace r1old r1new (subAll (fixtureMatchLen head2) repl2
        (subAll (fixtureMatchLen head1) repl1 t))).drop i) :=
    (repDecomp_pat_noMatch hne2 (by decide) (by decide) (by decide) (by decide) (by decide)
      (by decide) (by decide) (by decide) (by decide) (by decide) (by decide) (by decide)
      (by decide) (pyReplace_decomp r1old r1new (by decide) _) A2a).1
  have B2a : ∀ i, ¬ PatMatch (pats head1)
      ((pyReplace r2old r2new (pyReplace r1old r1new (subAll (fixtureMatchLen head2) repl2
        (subAll (fixtureMatchLen head1) repl1 t)))).drop i) :=
    (repDecomp_pat_noMatch hne1 (by decide) (by decide) (by decide) (by decide) (by decide)
      (by decide) (by decide) (by decide) (by decide) (by decide) (by decide) (by decide)
      (by decide) (pyReplace_decomp r2old r2new (by decide) _) B1a).1
  have B2b : ∀ i, ¬ PatMatch (pats head2)
      ((pyReplace r2old r2new (pyReplace r1old r1new (subAll (fixtureMatchLen head2) repl2
        (subAll (fixtureMatchLen head1) repl1 t)))).drop i) :=
    (repDecomp_pat_noMatch hne2 (by decide) (by decide) (by decide) (by decide) (by decide)
      (by decide) (by decide) (by decide) (by decide) (by decide) (by decide) (by decide)
      (by decide) (pyReplace_decomp r2old r2new (by decide) _) B1b).1
  have B3a : ∀ i, ¬ PatMatch (pats head1)
      ((pyReplace r3old r3new (pyReplace r2old r2new (pyReplace r1old r1new
        (subAll (fixtureMatchLen head2) repl2
          (subAll (fixtureMatchLen head1) repl1 t))))).drop i) :=
    (repDecomp_pat_noMatch hne1 (by decide) (by decide) (by decide) (by decide) (by decide)
      (by decide) (by decide) (by decide) (by decide) (by decide) (by decide) (by decide)
      (by decide) (pyReplace_decomp r3old r3new (by decide) _) B2a).1
  have B3b : ∀ i, ¬ PatMatch (pats head2)
      ((pyReplace r3old r3new (pyReplace r2old r2new (pyReplace r1old r1new
        (subAll (fixtureMatchLen head2) repl2
          (subAll (fixtureMatchLen head1) repl1 t))))).drop i) :=
    (repDecomp_pat_noMatch hne2 (by decide) (by decide) (by decide) (by decide) (by decide)
      (by decide) (by decide) (by decide) (by decide) (by decide) (by decide) (by decide)
      (by decide) (pyReplace_decomp r3old r3new (by decide) _) B2b).1
  have B4a : ∀ i, ¬ PatMatch (pats head1) ((fixContent t).drop i) :=
    (repDecomp_pat_noMatch hne1 (by decide) (by decide) (by decide) (by decide) (by decide)
      (by decide) (by decide) (by decide) (by decide) (by decide) (by decide) (by decide)
      (by decide) (pyReplace_decomp r4old r4new (by decide) _) B3a).1
  have B4b : ∀ i, ¬ PatMatch (pats head2) ((fixContent t).drop i) :=
    (repDecomp_pat_noMatch hne2 (by decide) (by decide) (by decide) (by decide) (by decide)
      (by decide) (by decide) (by decide) (by decide) (by decide) (by decide) (by decide)
      (by decide) (pyReplace_decomp r4old r4new (by decide) _) B3b).1
  have L3a : ∀ i, ¬ r3old <+: ((pyReplace r3old r3new (pyReplace r2old r2new
      (pyReplace r1old r1new (subAll (fixtureMatchLen head2) repl2
        (subAll (fixtureMatchLen head1) repl1 t))))).drop i) :=
    (repDecomp_self_noOcc (by decide) (by decide) (by decide)
      (pyReplace_decomp r3old r3new (by decide) _)).1
  have L3 : ∀ i, ¬ r3old <+: ((fixContent t).drop i) :=
    (repDecomp_cross_noOcc (by decide) (by decide) (by decide)
      (pyReplace_decomp r4old r4new (by decide) _) L3a).1
  have L4 : ∀ i, ¬ r4old <+: ((fixContent t).drop i) :=
    (repDecomp_self_noOcc (by decide) (by decide) (by decide)
      (pyReplace_decomp r4old r4new (by decide) _)).1
  have L1 : ∀ i, ¬ r1old <+: ((fixContent t).drop i) :=
    fun i h => L3 i ((show r3old <+: r1old by decide).trans h)
  have L2 : ∀ i, ¬ r2old <+: ((fixContent t).drop i) :=
    fun i h => L4 i ((show r4old <+: r2old by decide).trans h)
  exact fixContent_id_of_clean B4a B4b L1 L2 L3 L4

/-- C1: the end-to-end scenario: applying `fix_file`'s text transformation
(both structural rules, then all rename rules, in source order) to the
foundationData fixture line followed by the expectation line yields exactly
the helper call followed by the renamed field path. -/
theorem C1_end_to_end :
    migrateString ("const foundationData = \x7b $schema: \x27x\x27, notes: \x7b developmentStatus: [] \x7d, \x7d;\nexpect(r.whyWeAreBuildingIt.problemDefinition.primary.description).toBe(\x27d\x27);") =
      "const foundationData = createMinimalFoundation();\nexpect(r.problemSpace.primaryProblem.description).toBe(\x27d\x27);" := by
  decide

/-- C3: the migration's text transformation (all structural rules, then all
rename rules, in source order) is idempotent: applying it twice to any input
text yields the same text as applying it once, because migrated text
contains no match of either structural pattern and no occurrence of any
rename rule's old string. -/
theorem C3_idempotent (s : String) : migrateString (migrateString s) = migrateString s := by
  have h : (String.mk (fixContent s.toList)).toList = fixContent s.toList := rfl
  simp only [migrateString]
  rw [h, fixContent_fixpoint]

/-- C4: rename rules apply most-specific-first: the input
`foo.whatWeAreBuilding.projectOverview.bar` migrates to
`foo.solutionSpace.overview.bar`, not `foo.solutionSpace.projectOverview.bar`. -/
theorem C4_rename_order :
    migrateString "foo.whatWeAreBuilding.projectOverview.bar" =
      "foo.solutionSpace.overview.bar" := by
  decide

/-- C2 counterexample: a `const minimalFoundation = \x7b ... \x7d;` construct
with arbitrary nested field content but no `\$schema:` token is left
unchanged by the migration, so the migration does not replace every such
construct as the claim states. -/
theorem C2_counterexample :
    migrateString "const minimalFoundation = \x7b\n  name: \x27x\x27,\n  notes: \x7b developmentStatus: [] \x7d,\n\x7d;" =
      "const minimalFoundation = \x7b\n  name: \x27x\x27,\n  notes: \x7b developmentStatus: [] \x7d,\n\x7d;" ∧
    "const minimalFoundation = \x7b\n  name: \x27x\x27,\n  notes: \x7b developmentStatus: [] \x7d,\n\x7d;" ≠
      "const minimalFoundation = createMinimalFoundation();" := by
  constructor
  · decide
  · decide

/-- C2 (amended): for every text `pre ++ construct ++ post` whose construct
begins with `const minimalFoundation = \x7b`, reaches a `\$schema:` token
through brace-free characters, continues to the first occurrence of the end
marker `notes: \x7b developmentStatus: [] \x7d,` and closes with optional
whitespace and `\x7d;`, and in which the structural pattern matches nowhere
else, the first structural rule replaces exactly that span with
`const minimalFoundation = createMinimalFoundation();` and leaves `pre` and
`post` byte-identical. -/
theorem C2_structural_exact (pre a b w post : List Char)
    (hpre : ∀ i, i < pre.length →
      fixtureMatchLen head1 ((pre ++ (head1 ++ (a ++ (schemaTok ++ (b ++ (endMarker ++ (w ++ (closeTok ++ post)))))))).drop i) = none)
    (ha : (a.all fun c => !(c == '\x7d')) = true)
    (haFirst : ∀ i, i < a.length →
      schemaTok.isPrefixOf ((a ++ (schemaTok ++ (b ++ (endMarker ++ (w ++ (closeTok ++ post)))))).drop i) = false)
    (hbFirst : ∀ i, i < b.length →
      endMarker.isPrefixOf ((b ++ (endMarker ++ (w ++ (closeTok ++ post)))).drop i) = false)
    (hw : (w.all isPySpace) = true)
    (hpost : ∀ i, i < post.length → fixtureMatchLen head1 (post.drop i) = none) :
    subAll (fixtureMatchLen head1) repl1
        (pre ++ (head1 ++ (a ++ (schemaTok ++ (b ++ (endMarker ++ (w ++ (closeTok ++ post)))))))) =
      pre ++ (repl1 ++ post) := by
  have hmatch := fixtureMatch_span head1 a b w post ha haFirst hbFirst hw
  have hlen : (pre ++ (head1 ++ (a ++ (schemaTok ++ (b ++ (endMarker ++ (w ++ (closeTok ++ post)))))))).length =
      pre.length + ((head1.length + a.length + schemaTok.length + b.length + endMarker.length + w.length + closeTok.length) + post.length) := by
    simp [List.length_append]
    omega
  rw [subAll, hlen]
  rw [subAllFuel_append pre _ _ hpre]
  have hne : head1 ++ (a ++ (schemaTok ++ (b ++ (endMarker ++ (w ++ (closeTok ++ post)))))) ≠ [] := by
    apply List.ne_nil_of_length_pos
    have : 0 < head1.length := by decide
    simp [List.length_append]
    omega
  have hn0 : head1.length + a.length + schemaTok.length + b.length + endMarker.length + w.length + closeTok.length ≠ 0 := by
    have : 0 < head1.length := by decide
    omega
  rw [subAllFuel_match hmatch hn0 hne _ (by omega)]
  have hdrop : (head1 ++ (a ++ (schemaTok ++ (b ++ (endMarker ++ (w ++ (closeTok ++ post))))))).drop
      (head1.length + a.length + schemaTok.length + b.length + endMarker.length + w.length + closeTok.length) = post := by
    have hflat : head1 ++ (a ++ (schemaTok ++ (b ++ (endMarker ++ (w ++ (closeTok ++ post)))))) =
        (head1 ++ a ++ schemaTok ++ b ++ endMarker ++ w ++ closeTok) ++ post := by
      simp [List.append_assoc]
    rw [hflat]
    apply List.drop_left'
    simp only [List.length_append]
  rw [hdrop]
  have hpost' : ∀ i, fixtureMatchLen head1 (post.drop i) = none := by
    intro i
    by_cases hi : i < post.length
    · exact hpost i hi
    · rw [List.drop_eq_nil_of_le (by omega)]
      exact fixtureMatchLen_nil (by decide)
  rw [subAllFuel_id hpost']

/-- C2 witness: a concrete instance of the amended structural-exactness
theorem. -/
theorem C2_structural_exact_witness :
    subAll (fixtureMatchLen head1) repl1
        ("x = 1;\n".toList ++ (head1 ++ (" ".toList ++ (schemaTok ++ (" \x27v\x27,\n  ".toList ++ (endMarker ++ ("\n".toList ++ (closeTok ++ "\nrest".toList)))))))) =
      "x = 1;\n".toList ++ (repl1 ++ "\nrest".toList) :=
  C2_structural_exact "x = 1;\n".toList " ".toList " \x27v\x27,\n  ".toList "\n".toList "\nrest".toList
    (by decide) (by decide) (by decide) (by decide) (by decide) (by decide)

/-- C9: a structural rule replaces a construct only if the `\$schema:` token
occurs after the opening brace with no `\x7d` between the brace and the
token (first conjunct: every successful match begins with the head literal
and reaches `\$schema:` through brace-free characters); a text none of whose
head occurrences reaches such a `\$schema:` token is left byte-identical by
both structural rules (second conjunct). -/
theorem C9_schema_gate :
    (∀ (head l : List Char) (n : Nat), fixtureMatchLen head l = some n →
      head.isPrefixOf l = true ∧ cleanSchemaAt (l.drop head.length) = true) ∧
    (∀ l : List Char,
      (∀ i, i < l.length → head1.isPrefixOf (l.drop i) = true →
        cleanSchemaAt (l.drop (i + head1.length)) = false) →
      (∀ i, i < l.length → head2.isPrefixOf (l.drop i) = true →
        cleanSchemaAt (l.drop (i + head2.length)) = false) →
      subAll (fixtureMatchLen head2) repl2 (subAll (fixtureMatchLen head1) repl1 l) = l) := by
  constructor
  · intro head l n h
    exact fixtureMatchLen_clean h
  · intro l h1 h2
    have e1 : subAll (fixtureMatchLen head1) repl1 l = l := by
      rw [subAll]
      exact subAllFuel_id (fixtureMatchLen_none_of_noClean (by decide) h1) _
    have e2 : subAll (fixtureMatchLen head2) repl2 l = l := by
      rw [subAll]
      exact subAllFuel_id (fixtureMatchLen_none_of_noClean (by decide) h2) _
    rw [e1, e2]

/-- C9 witness: a minimalFoundation construct that ends with the closing
marker but has no `\$schema:` token is left byte-identical by both
structural rules. -/
theorem C9_schema_gate_witness :
    subAll (fixtureMatchLen head2) repl2 (subAll (fixtureMatchLen head1) repl1
        "const minimalFoundation = \x7b notes: \x7b developmentStatus: [] \x7d, \x7d;".toList) =
      "const minimalFoundation = \x7b notes: \x7b developmentStatus: [] \x7d, \x7d;".toList :=
  C9_schema_gate.2 _ (by decide) (by decide)

/-- C5 counterexample: on the batch `["a", "b"]` where `a` is missing and
`b` holds text the migration would change, the run stops at `a` with exit
code 1 and `b` is left with its old content — a read failure does abort the
batch and is not recorded-and-skipped as the claim states. -/
theorem C5_counterexample :
    mainFix [("b", "whatWeAreBuilding")] ["a", "b"] =
      ([("b", "whatWeAreBuilding")],
        [(Chan.stdout, "Error fixing a: [Errno 2] No such file or directory: \x27a\x27")], 1) ∧
    migrateString "whatWeAreBuilding" ≠ "whatWeAreBuilding" := by
  constructor
  · decide
  · decide

/-- C5 (amended): if reading a location fails, no write is attempted for it,
but the error propagates out of `fix_file` to the driver loop, which prints
the failure and exits 1 at once without processing the remaining locations. -/
theorem C5_read_failure_aborts (fs : FSys) (p : String) (ps : List String)
    (h : readFSys fs p = none) :
    mainLoop fs (p :: ps) =
      (fs, [(Chan.stdout, "Error fixing " ++ p ++ ": " ++ readErrDetail p)], 1) := by
  simp [mainLoop, fix_file, h]

/-- C5 witness: the amended fail-fast behaviour at a concrete batch. -/
theorem C5_read_failure_aborts_witness :
    mainLoop [("b", "t")] ["a", "b"] =
      ([("b", "t")], [(Chan.stdout, "Error fixing " ++ "a" ++ ": " ++ readErrDetail "a")], 1) :=
  C5_read_failure_aborts [("b", "t")] "a" ["b"] (by decide)

/-- C6 counterexample: with zero locations the usage message is printed on
standard output, not standard error as the claim states (exit code 1 is as
claimed). -/
theorem C6_counterexample :
    mainFix [] [] = ([], [(Chan.stdout, usageMsg)], 1) ∧ Chan.stdout ≠ Chan.stderr := by
  constructor
  · decide
  · decide

/-- C6 (amended): with zero locations the CLI prints the usage message to
standard output and exits with code 1. -/
theorem C6_usage_exit (fs : FSys) :
    mainFix fs [] = (fs, [(Chan.stdout, usageMsg)], 1) := by
  simp [mainFix]

/-- C7 counterexample: the `Error fixing <location>: <detail>` line of a
failing location goes to standard output, not standard error as the claim
states (immediate exit 1 is as claimed). -/
theorem C7_counterexample :
    mainFix [] ["missing.ts"] =
      ([], [(Chan.stdout, "Error fixing missing.ts: [Errno 2] No such file or directory: \x27missing.ts\x27")], 1) ∧
    Chan.stdout ≠ Chan.stderr := by
  constructor
  · decide
  · decide

/-- C7 (amended): when a location fails, the driver prints
`Error fixing <location>: <detail>` to standard output and immediately
terminates with exit code 1, without processing any further locations. -/
theorem C7_fail_fast (fs : FSys) (p : String) (ps : List String)
    (h : fix_file fs p = none) :
    mainFix fs (p :: ps) =
      (fs, [(Chan.stdout, "Error fixing " ++ p ++ ": " ++ readErrDetail p)], 1) := by
  rw [mainFix]
  simp [mainLoop, h]

/-- C7 witness: the amended fail-fast behaviour at a concrete invocation. -/
theorem C7_fail_fast_witness :
    mainFix [] ["f", "g"] =
      ([], [(Chan.stdout, "Error fixing " ++ "f" ++ ": " ++ readErrDetail "f")], 1) :=
  C7_fail_fast [] "f" ["g"] (by decide)

/-- C8 counterexample: with an empty sequence of locations the driver exits
with code 1, not 0 as the claim states. -/
theorem C8_counterexample :
    (mainFix [] []).2.2 = 1 ∧ (1 : Nat) ≠ 0 := by
  constructor
  · decide
  · decide

/-- C8 (amended): on an empty sequence of locations the per-location loop
produces no results and falls through with exit code 0, but the CLI driver
never reaches it — it prints the usage message and exits with code 1. -/
theorem C8_empty_batch (fs : FSys) :
    mainLoop fs [] = (fs, [], 0) ∧ mainFix fs [] = (fs, [(Chan.stdout, usageMsg)], 1) := by
  exact ⟨rfl, by simp [mainFix]⟩

/-- C10: if the parsed context binds `workUnitId` to the empty string, to
null, or to any other falsy value (`if not work_unit_id` — false, 0, an
empty array or an empty object), the hook prints `No workUnitId in context`
to standard error and exits with code 1, exactly as when the field is
absent (the empty context). -/
theorem C10_falsy_workUnitId (fields : List (String × JVal))
    (h : truthy (dictGet fields "workUnitId") = false) :
    checkWorkUnitId fields = HookOutcome.fatal Chan.stderr "No workUnitId in context" 1 ∧
    checkWorkUnitId fields = checkWorkUnitId [] := by
  have hfatal : checkWorkUnitId fields =
      HookOutcome.fatal Chan.stderr "No workUnitId in context" 1 := by
    simp [checkWorkUnitId, h]
  exact ⟨hfatal, hfatal.trans rfl⟩

/-- C10 witness: a context whose `workUnitId` is the empty string, and one
whose `workUnitId` is the falsy boolean false, are each fatal in the same
way as the empty context. -/
theorem C10_falsy_workUnitId_witness :
    (checkWorkUnitId [("workUnitId", JVal.jstr "")] =
        HookOutcome.fatal Chan.stderr "No workUnitId in context" 1 ∧
      checkWorkUnitId [("workUnitId", JVal.jstr "")] = checkWorkUnitId []) ∧
    (checkWorkUnitId [("workUnitId", JVal.jbool false)] =
        HookOutcome.fatal Chan.stderr "No workUnitId in context" 1 ∧
      checkWorkUnitId [("workUnitId", JVal.jbool false)] = checkWorkUnitId []) :=
  ⟨C10_falsy_workUnitId [("workUnitId", JVal.jstr "")] rfl,
   C10_falsy_workUnitId [("workUnitId", JVal.jbool false)] rfl⟩
